import Mathlib

/-!
Verification of the scip-ts model-building and constraint-reformulation engine.

The development shallowly embeds the TypeScript sources:
  * `src/model/bounds.ts`  (exprBounds, isIntegral, assertBinary)
  * `src/model/model.ts`   (the Model class with its reformulation primitives)
  * `src/model/mps-format.ts` (the row-naming and RHS parts of toMPSFormat)
  * `src/solver.ts`        (the disposal operation `free`)
JavaScript numbers are modelled by `XReal`: exact rationals plus the three
non-finite values +Infinity, -Infinity and NaN, with IEEE addition and
multiplication semantics for those cases (a finite product or sum of
rationals never overflows here, which is faithful at the magnitudes the
library manipulates).

The classes `Var`, `LinExpr`, `Constraint` and the helper `sum` live in
files that are not part of the snapshot (var.ts, expr.ts, constraint.ts,
helpers.ts); they are modelled from the specification, as marked on each
definition.
-/

/-- JavaScript number: exact rational, +Infinity, -Infinity, or NaN. -/
inductive XReal where
  | fin (q : ℚ)
  | pinf
  | minf
  | nan
deriving DecidableEq, Repr

/-- JS `isFinite`: true only for finite numbers (false on NaN and infinities). -/
def XReal.isFin : XReal → Bool
  | .fin _ => true
  | _ => false

/-- JS addition restricted to the cases arising here: NaN absorbs, opposite
infinities give NaN, an infinity absorbs finite summands. -/
def jadd : XReal → XReal → XReal
  | .nan, _ => .nan
  | _, .nan => .nan
  | .pinf, .minf => .nan
  | .minf, .pinf => .nan
  | .pinf, _ => .pinf
  | _, .pinf => .pinf
  | .minf, _ => .minf
  | _, .minf => .minf
  | .fin a, .fin b => .fin (a + b)

/-- JS multiplication of a finite coefficient with a bound: `0 * ±Infinity`
is NaN, a nonzero coefficient flips or keeps the infinity by its sign. -/
def jmul (c : ℚ) : XReal → XReal
  | .fin q => .fin (c * q)
  | .pinf => if 0 < c then .pinf else if c < 0 then .minf else .nan
  | .minf => if 0 < c then .minf else if c < 0 then .pinf else .nan
  | .nan => .nan

/-- JS `<=` comparison: any comparison with NaN is false; -Infinity is below
everything else and +Infinity above everything else. -/
def xle : XReal → XReal → Bool
  | .nan, _ => false
  | _, .nan => false
  | .minf, _ => true
  | _, .pinf => true
  | .pinf, _ => false
  | _, .minf => false
  | .fin a, .fin b => decide (a ≤ b)

/-- Modelled from the spec: the type of a decision variable
(`VarType` in types.ts, which is absent from the snapshot). -/
inductive VarType where
  | continuous
  | integer
  | binary
deriving DecidableEq, Repr

/-- Modelled from the spec: a Variable is an identity with a name, a type and
bounds in ℝ ∪ {±∞} (var.ts is absent from the snapshot). -/
structure Var where
  name : String
  type : VarType
  lb : XReal
  ub : XReal
deriving DecidableEq, Repr

/-- Modelled from the spec: a Term is a coefficient paired with a variable. -/
structure Term where
  coeff : ℚ
  v : Var
deriving DecidableEq, Repr

/-- Modelled from the spec: a Linear Expression is an ordered sequence of
terms (possibly repeating variables) plus a scalar constant (expr.ts is
absent from the snapshot). -/
structure LinExpr where
  terms : List Term
  constant : ℚ
deriving DecidableEq, Repr

/-- Modelled from the spec: the sense of a constraint. -/
inductive Sense where
  | le
  | ge
  | eq
deriving DecidableEq, Repr

/-- Modelled from the spec: a Constraint is a linear expression bound by a
relational sense and a right-hand-side scalar, with an optional name
(constraint.ts is absent from the snapshot). -/
structure Constraint where
  expr : LinExpr
  sense : Sense
  rhs : ℚ
  name : Option String
deriving DecidableEq, Repr

/-- Modelled from the spec: `v.times(c)` builds the one-term expression. -/
def Var.timesC (v : Var) (c : ℚ) : LinExpr := ⟨[⟨c, v⟩], 0⟩

/-- Modelled from the spec: a variable viewed as the expression `1·v`. -/
def Var.toExpr (v : Var) : LinExpr := v.timesC 1

/-- Modelled from the spec: negation of an expression (all coefficients and
the constant are negated; a new value is returned). -/
def LinExpr.negE (e : LinExpr) : LinExpr :=
  ⟨e.terms.map (fun t => ⟨-t.coeff, t.v⟩), -e.constant⟩

/-- Modelled from the spec: `v.neg()` is `v.times(-1)`. -/
def Var.negV (v : Var) : LinExpr := v.timesC (-1)

/-- Modelled from the spec: sum of two expressions concatenates the term
sequences and adds the constants. -/
def LinExpr.addE (a b : LinExpr) : LinExpr :=
  ⟨a.terms ++ b.terms, a.constant + b.constant⟩

/-- Modelled from the spec: `e.minus(other)` as `e.plus(other.neg())`. -/
def LinExpr.subE (a b : LinExpr) : LinExpr := a.addE b.negE

/-- Modelled from the spec: appending a single variable (`e.plus(v)`). -/
def LinExpr.addV (e : LinExpr) (v : Var) : LinExpr := e.addE v.toExpr

/-- Modelled from the spec: `e.minus(v)`. -/
def LinExpr.subV (e : LinExpr) (v : Var) : LinExpr := e.addE v.negV

/-- Modelled from the spec: adding a numeric constant. -/
def LinExpr.addC (e : LinExpr) (q : ℚ) : LinExpr := ⟨e.terms, e.constant + q⟩

/-- Modelled from the spec: `expr.leq(rhs)` wraps into a `≤` constraint with
no name. -/
def LinExpr.leqE (e : LinExpr) (r : ℚ) : Constraint := ⟨e, .le, r, none⟩

/-- Modelled from the spec: `expr.geq(rhs)`. -/
def LinExpr.geqE (e : LinExpr) (r : ℚ) : Constraint := ⟨e, .ge, r, none⟩

/-- Modelled from the spec: `expr.eq(rhs)`. -/
def LinExpr.eqE (e : LinExpr) (r : ℚ) : Constraint := ⟨e, .eq, r, none⟩

/-- Modelled from the spec: `v.leq(rhs)` on a bare variable. -/
def Var.leqC (v : Var) (r : ℚ) : Constraint := v.toExpr.leqE r

/-- Modelled from the spec: `v.geq(rhs)`. -/
def Var.geqC (v : Var) (r : ℚ) : Constraint := v.toExpr.geqE r

/-- Modelled from the spec: `v.eq(rhs)`. -/
def Var.eqC (v : Var) (r : ℚ) : Constraint := v.toExpr.eqE r

/-- Modelled from the spec: an argument to `sum(...)` — a variable, an
expression, or a numeric constant. -/
inductive SItem where
  | V (v : Var)
  | E (e : LinExpr)
  | C (c : ℚ)

/-- Modelled from the spec: the helper `sum(...)` folds its arguments into one
linear expression, starting from the zero expression. -/
def sumL (items : List SItem) : LinExpr :=
  items.foldl
    (fun acc i =>
      match i with
      | .V v => acc.addV v
      | .E e => acc.addE e
      | .C c => acc.addC c)
    ⟨[], 0⟩

/-- Evaluation of a linear expression under an assignment of rational values
to variables: `constant + Σ coeff·σ(var)`. -/
def LinExpr.eval (e : LinExpr) (σ : Var → ℚ) : ℚ :=
  e.terms.foldl (fun a t => a + t.coeff * σ t.v) e.constant

/-- Satisfaction of a single constraint under an assignment. -/
def Constraint.sat (c : Constraint) (σ : Var → ℚ) : Prop :=
  match c.sense with
  | .le => c.expr.eval σ ≤ c.rhs
  | .ge => c.expr.eval σ ≥ c.rhs
  | .eq => c.expr.eval σ = c.rhs

instance (c : Constraint) (σ : Var → ℚ) : Decidable (c.sat σ) := by
  unfold Constraint.sat
  match c.sense with
  | .le => exact inferInstance
  | .ge => exact inferInstance
  | .eq => exact inferInstance

/-- All constraints of a list hold under the assignment. -/
def satAll (cs : List Constraint) (σ : Var → ℚ) : Prop := ∀ c ∈ cs, c.sat σ

instance (cs : List Constraint) (σ : Var → ℚ) : Decidable (satAll cs σ) :=
  List.decidableBAll _ cs

/-! ## bounds.ts -/

/-- The accumulation loop of `exprBounds` (bounds.ts): for each term, a
positive coefficient multiplies the matching bound, otherwise the bounds are
swapped. The zero coefficient falls into the `else` branch of the source. -/
def boundsAux : List Term → XReal → XReal → XReal × XReal
  | [], lb, ub => (lb, ub)
  | t :: ts, lb, ub =>
    if 0 < t.coeff then
      boundsAux ts (jadd lb (jmul t.coeff t.v.lb)) (jadd ub (jmul t.coeff t.v.ub))
    else
      boundsAux ts (jadd lb (jmul t.coeff t.v.ub)) (jadd ub (jmul t.coeff t.v.lb))

/-- `exprBounds` (bounds.ts) on a linear expression: both accumulators start
at the expression's constant. -/
def exprBounds (e : LinExpr) : XReal × XReal :=
  boundsAux e.terms (.fin e.constant) (.fin e.constant)

/-- `exprBounds` (bounds.ts) on a bare variable: its declared bounds. -/
def exprBoundsV (v : Var) : XReal × XReal := (v.lb, v.ub)

/-- `isIntegral` (bounds.ts): integer constant, and every term has an integer
coefficient on an integer- or binary-typed variable. -/
def isIntegral (e : LinExpr) : Bool :=
  e.constant.den == 1 &&
    e.terms.all (fun t =>
      (t.v.type == .integer || t.v.type == .binary) && t.coeff.den == 1)

/-- The binarity test shared by `assertBinary` (bounds.ts) and `isBinary`
(model.ts): binary-typed, or integer-typed with bounds exactly [0, 1]. -/
def isBinaryV (v : Var) : Bool :=
  v.type == .binary || (v.type == .integer && v.lb == .fin 0 && v.ub == .fin 1)

/-! ## Error taxonomy

The source throws `Error` with a message string; the spec classifies the
throw sites (§7). Each constructor corresponds to one family of throw sites
and records the context string passed there. -/

inductive ModelError where
  | invalidArity (context : String)
  | invalidVariableKind (context varName : String)
  | unboundedBigM (context : String)
  | invalidRange (context : String)
  | unsupportedProduct
  | negativeExpr (context : String)
deriving DecidableEq, Repr

/-- `assertBinary` (bounds.ts), as a fallible check. -/
def assertBinaryE (v : Var) (context : String) : Except ModelError Unit :=
  if isBinaryV v then .ok () else .error (.invalidVariableKind context v.name)

/-! ## Decimal rendering

JS template literals render the variable counter in standard decimal
(`x${this.varCounter++}`, and `c${constraintIndex++}` in the MPS
serializer). `natDecimal` is that rendering. -/

/-- Decimal digits of `n`, least significant first; structurally recursive
on an always-sufficient fuel so it reduces definitionally. -/
def natDigitsRevF : ℕ → ℕ → List ℕ
  | 0, _ => []
  | fuel + 1, n => if n < 10 then [n] else n % 10 :: natDigitsRevF fuel (n / 10)

def natDigitsRev (n : ℕ) : List ℕ := natDigitsRevF (n + 1) n

/-- Standard decimal rendering of a natural number. -/
def natDecimal (n : ℕ) : String :=
  ⟨(natDigitsRev n).reverse.map (fun d => Char.ofNat (48 + d))⟩

/-! ## model.ts — the Model class

Each method is embedded as a state-passing function returning
`Except ModelError α × Model`. A thrown exception corresponds to `.error`;
the returned model carries exactly the mutations performed before the throw,
matching the in-place mutation of the source. -/

/-- Option bag of `xor` (types.ts). -/
inductive XorMethod where
  | constraints
  | compact
deriving DecidableEq, Repr

structure XorOptions where
  method : Option XorMethod := none

structure IndicatorOptions where
  active : Option Bool := none
  bigM : Option ℚ := none

structure BigMOptions where
  bigM : Option ℚ := none

structure ReifyOptions where
  bigM : Option ℚ := none
  epsilon : Option ℚ := none

/-- An argument of type `LinExpr | Var` (abs, max, min, divMod). -/
inductive ExprArg where
  | V (v : Var)
  | E (e : LinExpr)

/-- `expr instanceof Var ? expr.times(1) : expr`. -/
def ExprArg.toExpr : ExprArg → LinExpr
  | .V v => v.toExpr
  | .E e => e

/-- The optimization sense of the model. -/
inductive OptSense where
  | minimize
  | maximize
deriving DecidableEq, Repr

/-- The Model (model.ts): insertion-ordered variables and constraints, an
optional objective, a sense, and the counter generating fresh names. -/
structure Model where
  -- `variables` in the source; renamed because that word is reserved in Lean.
  vars : List Var
  constraints : List Constraint
  objective : Option LinExpr
  sense : OptSense
  varCounter : ℕ
deriving Repr

def Model.empty : Model := ⟨[], [], none, .minimize, 0⟩

/-- The common body of the three variable factories: the name is the supplied
one, or `x<counter>` with the counter bumped only when generated (the
post-increment in `name ?? x${this.varCounter++}` is skipped when a name is
supplied). -/
def Model.freshVar (m : Model) (ty : VarType) (lb ub : XReal) (name : Option String) :
    Var × Model :=
  match name with
  | some n =>
    let v : Var := ⟨n, ty, lb, ub⟩
    (v, { m with vars := m.vars ++ [v] })
  | none =>
    let v : Var := ⟨"x" ++ natDecimal m.varCounter, ty, lb, ub⟩
    (v, { m with vars := m.vars ++ [v], varCounter := m.varCounter + 1 })

/-- `numVar` (model.ts). -/
def Model.numVar (m : Model) (lb ub : XReal) (name : Option String) : Var × Model :=
  m.freshVar .continuous lb ub name

/-- `intVar` (model.ts). -/
def Model.intVar (m : Model) (lb ub : XReal) (name : Option String) : Var × Model :=
  m.freshVar .integer lb ub name

/-- `boolVar` (model.ts): binary with bounds [0, 1]. -/
def Model.boolVar (m : Model) (name : Option String) : Var × Model :=
  m.freshVar .binary (.fin 0) (.fin 1) name

/-- `addConstraint` (model.ts): an explicit name overrides the constraint's
own; otherwise the constraint is pushed as-is. -/
def Model.addConstraint (m : Model) (c : Constraint) (name : Option String) : Model :=
  let c' := match name with
    | some n => { c with name := some n }
    | none => c
  { m with constraints := m.constraints ++ [c'] }

/-- `minimize` (model.ts). -/
def Model.minimizeOp (m : Model) (e : ExprArg) : Model :=
  { m with objective := some e.toExpr, sense := .minimize }

/-- `maximize` (model.ts). -/
def Model.maximizeOp (m : Model) (e : ExprArg) : Model :=
  { m with objective := some e.toExpr, sense := .maximize }

/-- `finiteBounds` (model.ts) on an expression: fails with `UnboundedBigM`
unless both computed bounds are finite (NaN is not finite either, matching
`isFinite`). -/
def finiteBoundsE (e : LinExpr) (context : String) : Except ModelError (ℚ × ℚ) :=
  match exprBounds e with
  | (.fin a, .fin b) => .ok (a, b)
  | _ => .error (.unboundedBigM context)

/-- `finiteBounds` (model.ts) on a bare variable. -/
def finiteBoundsV (v : Var) (context : String) : Except ModelError (ℚ × ℚ) :=
  match exprBoundsV v with
  | (.fin a, .fin b) => .ok (a, b)
  | _ => .error (.unboundedBigM context)

/-- `computeBigM` (model.ts). -/
def computeBigM (e : LinExpr) (rhs : ℚ) (sense : Sense) (context : String) :
    Except ModelError ℚ :=
  match finiteBoundsE e context with
  | .error er => .error er
  | .ok (lb, ub) => .ok (if sense == .le then ub - rhs else rhs - lb)

/-- `and` (model.ts): arity checks, then binarity of every operand, then a
fresh binary `z` with `z − vᵢ ≤ 0` per operand and `z − Σvᵢ ≥ 1 − n`. -/
def Model.andOp (m : Model) (vars : List Var) : Except ModelError Var × Model :=
  match vars with
  | [] => (.error (.invalidArity "and()"), m)
  | [v] => (.ok v, m)
  | _ =>
    match vars.find? (fun v => !isBinaryV v) with
    | some v => (.error (.invalidVariableKind "and()" v.name), m)
    | none =>
      let (z, m) := m.boolVar none
      let m := vars.foldl (fun m v => m.addConstraint ((z.toExpr.subV v).leqE 0) none) m
      let m := m.addConstraint
        ((sumL (.V z :: vars.map (fun v => .E v.negV))).geqE (1 - vars.length)) none
      (.ok z, m)

/-- `or` (model.ts). -/
def Model.orOp (m : Model) (vars : List Var) : Except ModelError Var × Model :=
  match vars with
  | [] => (.error (.invalidArity "or()"), m)
  | [v] => (.ok v, m)
  | _ =>
    match vars.find? (fun v => !isBinaryV v) with
    | some v => (.error (.invalidVariableKind "or()" v.name), m)
    | none =>
      let (z, m) := m.boolVar none
      let m := vars.foldl (fun m v => m.addConstraint ((z.toExpr.subV v).geqE 0) none) m
      let m := m.addConstraint
        (((sumL (vars.map .V)).subV z).geqE 0) none
      (.ok z, m)

/-- `not` (model.ts). -/
def Model.notOp (m : Model) (x : Var) : Except ModelError Var × Model :=
  match assertBinaryE x "not()" with
  | .error er => (.error er, m)
  | .ok _ =>
    let (z, m) := m.boolVar none
    (.ok z, m.addConstraint ((z.toExpr.addV x).eqE 1) none)

/-- `xor` (model.ts): both operands are checked, `z` is created, then either
the compact method (`w = and(x,y)`, `z − x − y + 2w = 0`) or the default four
inequalities. -/
def Model.xorOp (m : Model) (x y : Var) (options : XorOptions) :
    Except ModelError Var × Model :=
  match assertBinaryE x "xor()" with
  | .error er => (.error er, m)
  | .ok _ =>
    match assertBinaryE y "xor()" with
    | .error er => (.error er, m)
    | .ok _ =>
      let (z, m) := m.boolVar none
      if options.method == some .compact then
        match m.andOp [x, y] with
        | (.error er, m) => (.error er, m)
        | (.ok w, m) =>
          (.ok z, m.addConstraint
            (((z.toExpr.subV x).subV y |>.addE (w.timesC 2)).eqE 0) none)
      else
        let m := m.addConstraint (((z.toExpr.subV x).subV y).leqE 0) none
        let m := m.addConstraint (((z.toExpr.subV x).addV y).geqE 0) none
        let m := m.addConstraint (((z.toExpr.addV x).subV y).geqE 0) none
        let m := m.addConstraint (((z.toExpr.addV x).addV y).leqE 2) none
        (.ok z, m)

/-- `addImplication` (model.ts). -/
def Model.addImplicationOp (m : Model) (x y : Var) : Except ModelError Unit × Model :=
  match assertBinaryE x "addImplication()" with
  | .error er => (.error er, m)
  | .ok _ =>
    match assertBinaryE y "addImplication()" with
    | .error er => (.error er, m)
    | .ok _ => (.ok (), m.addConstraint ((x.toExpr.subV y).leqE 0) none)

/-- `addAtMost` (model.ts). -/
def Model.addAtMostOp (m : Model) (k : ℚ) (vars : List Var) :
    Except ModelError Unit × Model :=
  match vars.find? (fun v => !isBinaryV v) with
  | some v => (.error (.invalidVariableKind "addAtMost()" v.name), m)
  | none => (.ok (), m.addConstraint ((sumL (vars.map .V)).leqE k) none)

/-- `addAtLeast` (model.ts). -/
def Model.addAtLeastOp (m : Model) (k : ℚ) (vars : List Var) :
    Except ModelError Unit × Model :=
  match vars.find? (fun v => !isBinaryV v) with
  | some v => (.error (.invalidVariableKind "addAtLeast()" v.name), m)
  | none => (.ok (), m.addConstraint ((sumL (vars.map .V)).geqE k) none)

/-- `addExactly` (model.ts). -/
def Model.addExactlyOp (m : Model) (k : ℚ) (vars : List Var) :
    Except ModelError Unit × Model :=
  match vars.find? (fun v => !isBinaryV v) with
  | some v => (.error (.invalidVariableKind "addExactly()" v.name), m)
  | none => (.ok (), m.addConstraint ((sumL (vars.map .V)).eqE k) none)

/-- `addIndicator` (model.ts): binarity of `delta` first; then the `≤` half
(for `≤` and `=` senses) and the `≥` half (for `≥` and `=`), each with its
own Big-M derived from `computeBigM` unless overridden. -/
def Model.addIndicatorOp (m : Model) (delta : Var) (c : Constraint)
    (options : IndicatorOptions) : Except ModelError Unit × Model :=
  match assertBinaryE delta "addIndicator()" with
  | .error er => (.error er, m)
  | .ok _ =>
    let active := options.active.getD true
    let step1 : Except ModelError Unit × Model :=
      if c.sense == .le || c.sense == .eq then
        match (match options.bigM with
               | some b => Except.ok b
               | none => computeBigM c.expr c.rhs .le "addIndicator()") with
        | .error er => (.error er, m)
        | .ok M =>
          if active then
            (.ok (), m.addConstraint ((c.expr.addE (delta.timesC M)).leqE (c.rhs + M)) none)
          else
            (.ok (), m.addConstraint ((c.expr.subE (delta.timesC M)).leqE c.rhs) none)
      else (.ok (), m)
    match step1 with
    | (.error er, m) => (.error er, m)
    | (.ok _, m) =>
      if c.sense == .ge || c.sense == .eq then
        match (match options.bigM with
               | some b => Except.ok b
               | none => computeBigM c.expr c.rhs .ge "addIndicator()") with
        | .error er => (.error er, m)
        | .ok M =>
          if active then
            (.ok (), m.addConstraint ((c.expr.subE (delta.timesC M)).geqE (c.rhs - M)) none)
          else
            (.ok (), m.addConstraint ((c.expr.addE (delta.timesC M)).geqE c.rhs) none)
      else (.ok (), m)

/-- `defaultEpsilon` (model.ts): 1 when the expression and the rhs are both
provably integral, else 1e-6. -/
def defaultEpsilon (e : LinExpr) (rhs : ℚ) : ℚ :=
  if isIntegral e && rhs.den == 1 then 1 else 1 / 1000000

/-- `abs` (model.ts): bounds (or ±bigM), the sign decomposition
`e = xPlus − xMinus`, `t = xPlus + xMinus`, and the selector constraints. -/
def Model.absOp (m : Model) (e : ExprArg) (options : BigMOptions) :
    Except ModelError Var × Model :=
  let ex := e.toExpr
  match (match options.bigM with
         | some b => Except.ok (-b, b)
         | none => finiteBoundsE ex "abs()") with
  | .error er => (.error er, m)
  | .ok (L, U) =>
    let posMax := max U 0
    let negMax := max (-L) 0
    let (xPlus, m) := m.numVar (.fin 0) (.fin posMax) none
    let (xMinus, m) := m.numVar (.fin 0) (.fin negMax) none
    let (delta, m) := m.boolVar none
    let (t, m) := m.numVar (.fin 0) (.fin (max posMax negMax)) none
    let m := m.addConstraint (((ex.subV xPlus).addV xMinus).eqE 0) none
    let m := m.addConstraint (((xPlus.toExpr.addV xMinus).subV t).eqE 0) none
    let m := m.addConstraint ((xPlus.toExpr.subE (delta.timesC posMax)).leqE 0) none
    let m := m.addConstraint ((xMinus.toExpr.addE (delta.timesC negMax)).leqE negMax) none
    (.ok t, m)

/-- The per-expression bound computation of `max`/`min` (model.ts): an
explicit bigM yields `[-bigM, bigM]`, otherwise `finiteBounds` runs on each
expression in order, propagating the first failure. -/
def boundsList (es : List LinExpr) (bigM : Option ℚ) (context : String) :
    Except ModelError (List (ℚ × ℚ)) :=
  match bigM with
  | some b => .ok (es.map (fun _ => (-b, b)))
  | none => es.mapM (fun e => finiteBoundsE e context)

/-- `max` (model.ts). -/
def Model.maxOp (m : Model) (exprs : List ExprArg) (options : BigMOptions) :
    Except ModelError Var × Model :=
  match exprs with
  | [] => (.error (.invalidArity "max()"), m)
  | [e] =>
    match e with
    | .V v => (.ok v, m)
    | .E ex =>
      let (t, m) := m.numVar .minf .pinf none
      (.ok t, m.addConstraint ((ex.subV t).eqE 0) none)
  | _ =>
    let es := exprs.map ExprArg.toExpr
    match boundsList es options.bigM "max()" with
    | .error er => (.error er, m)
    | .ok bounds =>
      match bounds with
      | [] => (.error (.invalidArity "max()"), m)
      | b0 :: brest =>
        let maxUb := brest.foldl (fun a b => max a b.2) b0.2
        let minLb := brest.foldl (fun a b => min a b.1) b0.1
        let (deltas, m) := es.foldl
          (fun (p : List Var × Model) _ =>
            let (d, m) := p.2.boolVar none
            (p.1 ++ [d], m))
          ([], m)
        let (t, m) := m.numVar (.fin minLb) (.fin maxUb) none
        let m := ((es.zip bounds).zip deltas).foldl
          (fun m p =>
            let Mi := maxUb - p.1.2.1
            let m := m.addConstraint ((t.toExpr.subE p.1.1).geqE 0) none
            m.addConstraint (((t.toExpr.subE p.1.1).addE (p.2.timesC Mi)).leqE Mi) none)
          m
        let m := m.addConstraint ((sumL (deltas.map .V)).eqE 1) none
        (.ok t, m)

/-- `min` (model.ts): note `t` is created before the selector binaries,
mirroring the source order (the opposite of `max`). -/
def Model.minOp (m : Model) (exprs : List ExprArg) (options : BigMOptions) :
    Except ModelError Var × Model :=
  match exprs with
  | [] => (.error (.invalidArity "min()"), m)
  | [e] =>
    match e with
    | .V v => (.ok v, m)
    | .E ex =>
      let (t, m) := m.numVar .minf .pinf none
      (.ok t, m.addConstraint ((ex.subV t).eqE 0) none)
  | _ =>
    let es := exprs.map ExprArg.toExpr
    match boundsList es options.bigM "min()" with
    | .error er => (.error er, m)
    | .ok bounds =>
      match bounds with
      | [] => (.error (.invalidArity "min()"), m)
      | b0 :: brest =>
        let maxUb := brest.foldl (fun a b => max a b.2) b0.2
        let minLb := brest.foldl (fun a b => min a b.1) b0.1
        let (t, m) := m.numVar (.fin minLb) (.fin maxUb) none
        let (deltas, m) := es.foldl
          (fun (p : List Var × Model) _ =>
            let (d, m) := p.2.boolVar none
            (p.1 ++ [d], m))
          ([], m)
        let m := ((es.zip bounds).zip deltas).foldl
          (fun m p =>
            let Mi := p.1.2.2 - minLb
            let m := m.addConstraint ((t.toExpr.subE p.1.1).leqE 0) none
            m.addConstraint (((t.toExpr.subE p.1.1).subE (p.2.timesC Mi)).geqE (-Mi)) none)
          m
        let m := m.addConstraint ((sumL (deltas.map .V)).eqE 1) none
        (.ok t, m)

/-- `product` (model.ts): binary×binary delegates to `and`; two non-binary
operands are rejected; otherwise the Glover linearization over the bounds of
the non-binary operand. -/
def Model.productOp (m : Model) (x y : Var) (options : BigMOptions) :
    Except ModelError Var × Model :=
  let xBin := isBinaryV x
  let yBin := isBinaryV y
  if xBin && yBin then
    m.andOp [x, y]
  else if !xBin && !yBin then
    (.error .unsupportedProduct, m)
  else
    let (delta, z) := if xBin then (x, y) else (y, x)
    match (match options.bigM with
           | some b => Except.ok (-b, b)
           | none => finiteBoundsV z "product()") with
    | .error er => (.error er, m)
    | .ok (L, U) =>
      let (w, m) := m.numVar (.fin (min L 0)) (.fin (max U 0)) none
      let m := m.addConstraint ((w.toExpr.subE (delta.timesC U)).leqE 0) none
      let m := m.addConstraint ((w.toExpr.subE (delta.timesC L)).geqE 0) none
      let m := m.addConstraint (((w.toExpr.subV z).subE (delta.timesC L)).leqE (-L)) none
      let m := m.addConstraint (((w.toExpr.subV z).subE (delta.timesC U)).geqE (-U)) none
      (.ok w, m)

/-- `semiContVar` (model.ts): requires `0 < lb ≤ ub`. -/
def Model.semiContVarOp (m : Model) (lb ub : ℚ) (name : Option String) :
    Except ModelError Var × Model :=
  if lb ≤ 0 || ub < lb then
    (.error (.invalidRange "semiContVar()"), m)
  else
    let (x, m) := m.numVar (.fin 0) (.fin ub) name
    let (delta, m) := m.boolVar none
    let m := m.addConstraint ((x.toExpr.subE (delta.timesC lb)).geqE 0) none
    let m := m.addConstraint ((x.toExpr.subE (delta.timesC ub)).leqE 0) none
    (.ok x, m)

/-- `divMod` (model.ts): `d` must be a positive integer, the expression must
have finite bounds and a non-negative lower bound. -/
def Model.divModOp (m : Model) (e : ExprArg) (d : ℚ) :
    Except ModelError (Var × Var) × Model :=
  if !(d.den == 1) || d ≤ 0 then
    (.error (.invalidRange "divMod()"), m)
  else
    let ex := e.toExpr
    match finiteBoundsE ex "divMod()" with
    | .error er => (.error er, m)
    | .ok (lb, ub) =>
      if lb < 0 then
        (.error (.negativeExpr "divMod()"), m)
      else
        let (q, m) := m.intVar (.fin 0) (.fin ⌊ub / d⌋) none
        let (r, m) := m.intVar (.fin 0) (.fin (d - 1)) none
        let m := m.addConstraint (((ex.subE (q.timesC d)).subV r).eqE 0) none
        (.ok (q, r), m)

/-- `addEitherOr` (model.ts): the selector binary is created first, then the
two indicator halves are added; a Big-M failure inside `addIndicator`
therefore leaves the selector behind. -/
def Model.addEitherOrOp (m : Model) (c1 c2 : Constraint) (options : BigMOptions) :
    Except ModelError Unit × Model :=
  let (delta, m) := m.boolVar none
  match m.addIndicatorOp delta c1 ⟨some false, options.bigM⟩ with
  | (.error er, m) => (.error er, m)
  | (.ok _, m) => m.addIndicatorOp delta c2 ⟨some true, options.bigM⟩

/-- `reifyLeqInternal` (model.ts): `M = ub − rhs`, `m = lb − rhs`, epsilon
defaulted, one fresh binary and the two reification constraints. -/
def Model.reifyLeqInternal (m : Model) (e : LinExpr) (rhs : ℚ) (options : ReifyOptions) :
    Except ModelError Var × Model :=
  match (match options.bigM with
         | some b => Except.ok (-b + rhs, b + rhs)
         | none => finiteBoundsE e "reify()") with
  | .error er => (.error er, m)
  | .ok (lb, ub) =>
    let M := ub - rhs
    let mm := lb - rhs
    let eps := options.epsilon.getD (defaultEpsilon e rhs)
    let (delta, m) := m.boolVar none
    let m := m.addConstraint ((e.addE (delta.timesC M)).leqE (rhs + M)) none
    let m := m.addConstraint ((e.subE (delta.timesC (mm - eps))).geqE (rhs + eps)) none
    (.ok delta, m)

/-- `reifyEqInternal` (model.ts): `M = max(ub − rhs, rhs − lb)`, two fresh
binaries `delta` and `mu`, and the four coupling inequalities. -/
def Model.reifyEqInternal (m : Model) (e : LinExpr) (rhs : ℚ) (options : ReifyOptions) :
    Except ModelError Var × Model :=
  match (match options.bigM with
         | some b => Except.ok (-b + rhs, b + rhs)
         | none => finiteBoundsE e "reify()") with
  | .error er => (.error er, m)
  | .ok (lb, ub) =>
    let Mpos := ub - rhs
    let Mneg := rhs - lb
    let M := max Mpos Mneg
    let eps := options.epsilon.getD (defaultEpsilon e rhs)
    let (delta, m) := m.boolVar none
    let (mu, m) := m.boolVar none
    let m := m.addConstraint ((e.addE (delta.timesC M)).leqE (rhs + M)) none
    let m := m.addConstraint ((e.subE (delta.timesC M)).geqE (rhs - M)) none
    let m := m.addConstraint
      (((e.addE (delta.timesC (M + eps))).addE (mu.timesC (M + eps))).geqE (rhs + eps)) none
    let m := m.addConstraint
      (((e.subE (delta.timesC (M + eps))).addE (mu.timesC (M + eps))).leqE
        (rhs - eps + (M + eps))) none
    (.ok delta, m)

/-- `reify` (model.ts): `≤` direct, `≥` by negation, `=` via `reifyEqInternal`. -/
def Model.reifyOp (m : Model) (c : Constraint) (options : ReifyOptions) :
    Except ModelError Var × Model :=
  match c.sense with
  | .le => m.reifyLeqInternal c.expr c.rhs options
  | .ge => m.reifyLeqInternal c.expr.negE (-c.rhs) options
  | .eq => m.reifyEqInternal c.expr c.rhs options

/-! ## mps-format.ts — row names and the RHS section -/

/-- The ROWS loop of `toMPSFormat`: each constraint's row name is its own
name, or `c<index>` where the index counts only the unnamed constraints
(the post-increment in `constraint.name ?? c${constraintIndex++}` runs only
when the name is absent). -/
def mpsConstraintNamesGo : List Constraint → ℕ → List String
  | [], _ => []
  | c :: cs, i =>
    match c.name with
    | some n => n :: mpsConstraintNamesGo cs i
    | none => ("c" ++ natDecimal i) :: mpsConstraintNamesGo cs (i + 1)

def mpsConstraintNames (cs : List Constraint) : List String :=
  mpsConstraintNamesGo cs 0

/-- One iteration of the RHS loop of `toMPSFormat`: look up the constraint
and its row name at index `i`, and push `(rowName, rhs − expr.constant)`
when that value is nonzero. -/
def mpsRhsStep (cs : List Constraint) (ns : List String)
    (acc : List (String × ℚ)) (i : ℕ) : List (String × ℚ) :=
  match cs[i]?, ns[i]? with
  | some c, some n =>
    if c.rhs - c.expr.constant ≠ 0 then acc ++ [(n, c.rhs - c.expr.constant)] else acc
  | _, _ => acc

/-- The RHS section of `toMPSFormat`: the loop over all constraint indices,
using the row names computed by the ROWS section. -/
def mpsRhsEntries (cs : List Constraint) : List (String × ℚ) :=
  (List.range cs.length).foldl (mpsRhsStep cs (mpsConstraintNames cs)) []

/-- The RHS section as the spec (§4.3) words it: one entry per constraint in
order, named as in ROWS, holding the rhs minus the expression's own constant
term, zero values silently omitted. -/
def specRhsEntries (cs : List Constraint) : List (String × ℚ) :=
  (cs.zip (mpsConstraintNames cs)).filterMap
    (fun p =>
      let v := p.1.rhs - p.1.expr.constant
      if v ≠ 0 then some (p.2, v) else none)

/-! ## solver.ts — the disposal operation -/

/-- Whether the two engine-level teardown calls fault (throw inside WASM). -/
structure EngineBehavior where
  scipFreeFaults : Bool
  memFreeFaults : Bool

/-- The observable state of a solver handle: its `freed` flag. -/
structure SCIPHandle where
  freed : Bool
deriving DecidableEq, Repr

/-- An engine call made during disposal. -/
inductive EngineCall where
  | scipFree
  | memFree
deriving DecidableEq, Repr

/-- The `ccall('SCIPfree', …)` boundary: faults according to the behavior. -/
def engineScipFree (b : EngineBehavior) : Except String Unit :=
  if b.scipFreeFaults then .error "engine teardown fault" else .ok ()

/-- The `_free(scipPtrPtr)` boundary. -/
def engineMemFree (b : EngineBehavior) : Except String Unit :=
  if b.memFreeFaults then .error "memory release fault" else .ok ()

/-- An empty `catch` block: the error is dropped. -/
def suppress (_ : Except String Unit) : Unit := ()

/-- `free` (solver.ts): a second call returns immediately; otherwise the
`freed` flag is set first, then `SCIPfree` runs inside `try … catch {}` and
the pointer release runs in the `finally` inside its own `try … catch {}` —
both faults are swallowed, so the operation itself never raises. The result
carries the outcome, the handle, and the engine calls that were made. -/
def SCIP.freeOp (b : EngineBehavior) (h : SCIPHandle) :
    Except String Unit × SCIPHandle × List EngineCall :=
  if h.freed then
    (.ok (), h, [])
  else
    let h := { h with freed := true }
    let r1 := engineScipFree b
    let _ := suppress r1
    let r2 := engineMemFree b
    let _ := suppress r2
    (.ok (), h, [.scipFree, .memFree])

/-! ## Public Model operations, for quantifying over call sequences -/

/-- One public Model call with every optional name omitted. Constraint-valued
arguments are given as raw (expression, sense, rhs) data, as produced by the
unnamed `leq`/`geq`/`eq` builders. -/
inductive MOp where
  | numVarO (lb ub : XReal)
  | intVarO (lb ub : XReal)
  | boolVarO
  | addConstraintO (e : LinExpr) (s : Sense) (r : ℚ)
  | minimizeO (e : ExprArg)
  | maximizeO (e : ExprArg)
  | andO (vs : List Var)
  | orO (vs : List Var)
  | notO (v : Var)
  | xorO (x y : Var) (o : XorOptions)
  | implicationO (x y : Var)
  | atMostO (k : ℚ) (vs : List Var)
  | atLeastO (k : ℚ) (vs : List Var)
  | exactlyO (k : ℚ) (vs : List Var)
  | indicatorO (d : Var) (e : LinExpr) (s : Sense) (r : ℚ) (o : IndicatorOptions)
  | absO (e : ExprArg) (o : BigMOptions)
  | maxO (es : List ExprArg) (o : BigMOptions)
  | minO (es : List ExprArg) (o : BigMOptions)
  | productO (x y : Var) (o : BigMOptions)
  | semiContO (lb ub : ℚ)
  | divModO (e : ExprArg) (d : ℚ)
  | eitherOrO (e1 : LinExpr) (s1 : Sense) (r1 : ℚ)
      (e2 : LinExpr) (s2 : Sense) (r2 : ℚ) (o : BigMOptions)
  | reifyO (e : LinExpr) (s : Sense) (r : ℚ) (o : ReifyOptions)

/-- Run one call against the model, keeping the (possibly partially mutated)
model whether or not the call raised. -/
def applyOp (m : Model) : MOp → Model
  | .numVarO lb ub => (m.numVar lb ub none).2
  | .intVarO lb ub => (m.intVar lb ub none).2
  | .boolVarO => (m.boolVar none).2
  | .addConstraintO e s r => m.addConstraint ⟨e, s, r, none⟩ none
  | .minimizeO e => m.minimizeOp e
  | .maximizeO e => m.maximizeOp e
  | .andO vs => (m.andOp vs).2
  | .orO vs => (m.orOp vs).2
  | .notO v => (m.notOp v).2
  | .xorO x y o => (m.xorOp x y o).2
  | .implicationO x y => (m.addImplicationOp x y).2
  | .atMostO k vs => (m.addAtMostOp k vs).2
  | .atLeastO k vs => (m.addAtLeastOp k vs).2
  | .exactlyO k vs => (m.addExactlyOp k vs).2
  | .indicatorO d e s r o => (m.addIndicatorOp d ⟨e, s, r, none⟩ o).2
  | .absO e o => (m.absOp e o).2
  | .maxO es o => (m.maxOp es o).2
  | .minO es o => (m.minOp es o).2
  | .productO x y o => (m.productOp x y o).2
  | .semiContO lb ub => (m.semiContVarOp lb ub none).2
  | .divModO e d => (m.divModOp e d).2
  | .eitherOrO e1 s1 r1 e2 s2 r2 o =>
      (m.addEitherOrOp ⟨e1, s1, r1, none⟩ ⟨e2, s2, r2, none⟩ o).2
  | .reifyO e s r o => (m.reifyOp ⟨e, s, r, none⟩ o).2

/-- A whole call sequence starting from the fresh model. -/
def applyOps (ops : List MOp) : Model := ops.foldl applyOp Model.empty

/-! ## Basic lemmas about the JS-number model -/

theorem XReal.isFin_iff {a : XReal} : a.isFin = true ↔ ∃ q, a = .fin q := by
  cases a <;> simp [XReal.isFin]

theorem jadd_fin_zero (a : XReal) : jadd a (.fin 0) = a := by
  cases a <;> simp [jadd]

theorem jmul_zero_fin (q : ℚ) : jmul 0 (.fin q) = .fin 0 := by
  simp [jmul]

theorem boundsAux_append (l1 l2 : List Term) (lb ub : XReal) :
    boundsAux (l1 ++ l2) lb ub =
      boundsAux l2 (boundsAux l1 lb ub).1 (boundsAux l1 lb ub).2 := by
  induction l1 generalizing lb ub with
  | nil => simp [boundsAux]
  | cons t ts ih =>
    by_cases h : 0 < t.coeff <;> simp [boundsAux, h, ih]

/-! ## C6 — a zero-coefficient term in `exprBounds` -/

/-- The concrete failing input of C6: the expression `0·x` over the
default-bounded variable `x ∈ [0, ∞)`. -/
def zeroCoeffExpr : LinExpr := ⟨[⟨0, ⟨"x0", .continuous, .fin 0, .pinf⟩⟩], 0⟩

/-- The same expression with the zero-coefficient term removed. -/
def zeroCoeffExprDropped : LinExpr := ⟨[], 0⟩

/-- C6: a term with coefficient exactly 0 contributes nothing to
`exprBounds` — but only when the variable's bounds are finite. The first
conjunct proves the removal property under that finiteness condition. The
remaining conjuncts evaluate the code at the failing input: for `0·x` with
`x ∈ [0, ∞)` the source's `else` branch computes `0 * Infinity = NaN`, so
the result `(NaN, 0)` differs from the bounds `(0, 0)` of the expression
with the term removed, contradicting the claim's "including when that
term's variable has an infinite lower or upper bound". -/
theorem c6_zero_coeff_term :
    (∀ (e : LinExpr) (pre post : List Term) (t : Term),
      e.terms = pre ++ t :: post → t.coeff = 0 →
      t.v.lb.isFin = true → t.v.ub.isFin = true →
      exprBounds e = exprBounds ⟨pre ++ post, e.constant⟩) ∧
    exprBounds zeroCoeffExpr = (.nan, .fin 0) ∧
    exprBounds zeroCoeffExprDropped = (.fin 0, .fin 0) ∧
    exprBounds zeroCoeffExpr ≠ exprBounds zeroCoeffExprDropped := by
  refine ⟨?_, by norm_num [zeroCoeffExpr, exprBounds, boundsAux, jmul, jadd],
    by norm_num [zeroCoeffExprDropped, exprBounds, boundsAux],
    by simp [zeroCoeffExpr, zeroCoeffExprDropped, exprBounds, boundsAux, jmul, jadd]⟩
  intro e pre post t hterms hc hlb hub
  obtain ⟨ql, hql⟩ := XReal.isFin_iff.mp hlb
  obtain ⟨qu, hqu⟩ := XReal.isFin_iff.mp hub
  unfold exprBounds
  rw [hterms]
  simp only [boundsAux_append]
  have hstep : ∀ a b : XReal, boundsAux (t :: post) a b = boundsAux post a b := by
    intro a b
    simp [boundsAux, hc, hqu, hql, jmul_zero_fin, jadd_fin_zero]
  rw [hstep]

/-- Instantiation of the conditional conjunct of `c6_zero_coeff_term` at a
concrete expression with a finite-bounded zero-coefficient term. -/
theorem c6_zero_coeff_term_witness :
    exprBounds ⟨[⟨0, ⟨"y", .continuous, .fin (-3), .fin 4⟩⟩, ⟨2, ⟨"z", .continuous, .fin 1, .fin 2⟩⟩], 5⟩ =
      exprBounds ⟨[⟨2, ⟨"z", .continuous, .fin 1, .fin 2⟩⟩], 5⟩ := by
  have h := c6_zero_coeff_term.1
    ⟨[⟨0, ⟨"y", .continuous, .fin (-3), .fin 4⟩⟩, ⟨2, ⟨"z", .continuous, .fin 1, .fin 2⟩⟩], 5⟩
    [] [⟨2, ⟨"z", .continuous, .fin 1, .fin 2⟩⟩] ⟨0, ⟨"y", .continuous, .fin (-3), .fin 4⟩⟩
    rfl rfl rfl rfl
  simpa using h

/-! ## C5 — idempotent, non-raising disposal -/

/-- C5: for every engine behavior (including faulting teardown calls) the
disposal operation returns successfully, marks the handle freed, and a
second invocation on the resulting handle is a no-op: it succeeds, leaves
the handle unchanged and performs no engine calls. -/
theorem c5_disposal_idempotent (b : EngineBehavior) (h : SCIPHandle) :
    (SCIP.freeOp b h).1 = .ok () ∧
    (SCIP.freeOp b h).2.1.freed = true ∧
    SCIP.freeOp b (SCIP.freeOp b h).2.1 = (.ok (), (SCIP.freeOp b h).2.1, []) := by
  cases h with
  | mk fr => cases fr <;> simp [SCIP.freeOp]

/-! ## C10 — single-operand and()/or() -/

/-- A continuous variable, for the C10 witness. -/
def contA : Var := ⟨"a", .continuous, .fin 0, .fin 10⟩

/-- A binary variable, for the C10 witness. -/
def binB : Var := ⟨"b", .binary, .fin 0, .fin 1⟩

/-- C10: `and`/`or` with exactly one variable return it unchanged with no
mutation and no binarity check; the same non-binary variable among two
operands raises `InvalidVariableKind` (still without mutation). -/
theorem c10_single_operand (m : Model) (v w : Var) :
    m.andOp [v] = (.ok v, m) ∧
    m.orOp [v] = (.ok v, m) ∧
    (isBinaryV v = false →
      m.andOp [v, w] = (.error (.invalidVariableKind "and()" v.name), m) ∧
      m.orOp [v, w] = (.error (.invalidVariableKind "or()" v.name), m)) := by
  refine ⟨rfl, rfl, fun hv => ⟨?_, ?_⟩⟩ <;>
    simp [Model.andOp, Model.orOp, List.find?, hv]

/-- Instantiation of `c10_single_operand` at a concrete continuous variable:
passed alone it is returned as-is, paired with a binary it raises. -/
theorem c10_single_operand_witness :
    Model.empty.andOp [contA] = (.ok contA, Model.empty) ∧
    Model.empty.orOp [contA] = (.ok contA, Model.empty) ∧
    Model.empty.andOp [contA, binB] =
      (.error (.invalidVariableKind "and()" "a"), Model.empty) ∧
    Model.empty.orOp [contA, binB] =
      (.error (.invalidVariableKind "or()" "a"), Model.empty) := by
  have h := c10_single_operand Model.empty contA binB
  have h2 := h.2.2 (by decide)
  exact ⟨h.1, h.2.1, h2.1, h2.2⟩

/-! ## C3 — soundness of `exprBounds` -/

theorem xle_fin_iff {a : XReal} {s : ℚ} :
    xle a (.fin s) = true ↔ a = .minf ∨ ∃ q, a = .fin q ∧ q ≤ s := by
  cases a <;> simp [xle]

theorem fin_xle_iff {a : XReal} {s : ℚ} :
    xle (.fin s) a = true ↔ a = .pinf ∨ ∃ q, a = .fin q ∧ s ≤ q := by
  cases a <;> simp [xle]

theorem lb_step_pos {acc bound : XReal} {s x c : ℚ} (hc : 0 < c)
    (hacc : xle acc (.fin s) = true) (hb : xle bound (.fin x) = true) :
    xle (jadd acc (jmul c bound)) (.fin (s + c * x)) = true := by
  rcases xle_fin_iff.mp hacc with rfl | ⟨a, rfl, ha⟩ <;>
    rcases xle_fin_iff.mp hb with rfl | ⟨b, rfl, hbx⟩ <;>
    simp [jadd, jmul, xle, hc]
  have : c * b ≤ c * x := mul_le_mul_of_nonneg_left hbx hc.le
  linarith

theorem lb_step_neg {acc bound : XReal} {s x c : ℚ} (hc : c < 0)
    (hacc : xle acc (.fin s) = true) (hb : xle (.fin x) bound = true) :
    xle (jadd acc (jmul c bound)) (.fin (s + c * x)) = true := by
  rcases xle_fin_iff.mp hacc with rfl | ⟨a, rfl, ha⟩ <;>
    rcases fin_xle_iff.mp hb with rfl | ⟨b, rfl, hbx⟩ <;>
    simp [jadd, jmul, xle, hc, not_lt.mpr hc.le]
  have : c * b ≤ c * x := mul_le_mul_of_nonpos_left hbx hc.le
  linarith

theorem ub_step_pos {acc bound : XReal} {s x c : ℚ} (hc : 0 < c)
    (hacc : xle (.fin s) acc = true) (hb : xle (.fin x) bound = true) :
    xle (.fin (s + c * x)) (jadd acc (jmul c bound)) = true := by
  rcases fin_xle_iff.mp hacc with rfl | ⟨a, rfl, ha⟩ <;>
    rcases fin_xle_iff.mp hb with rfl | ⟨b, rfl, hbx⟩ <;>
    simp [jadd, jmul, xle, hc]
  have : c * x ≤ c * b := mul_le_mul_of_nonneg_left hbx hc.le
  linarith

theorem ub_step_neg {acc bound : XReal} {s x c : ℚ} (hc : c < 0)
    (hacc : xle (.fin s) acc = true) (hb : xle bound (.fin x) = true) :
    xle (.fin (s + c * x)) (jadd acc (jmul c bound)) = true := by
  rcases fin_xle_iff.mp hacc with rfl | ⟨a, rfl, ha⟩ <;>
    rcases xle_fin_iff.mp hb with rfl | ⟨b, rfl, hbx⟩ <;>
    simp [jadd, jmul, xle, hc, not_lt.mpr hc.le]
  have : c * x ≤ c * b := mul_le_mul_of_nonpos_left hbx hc.le
  linarith

/-- Invariant propagation along the accumulation loop of `exprBounds`. -/
theorem boundsAux_sound (σ : Var → ℚ) :
    ∀ (ts : List Term) (lbA ubA : XReal) (s : ℚ),
      (∀ t ∈ ts, t.coeff = 0 → t.v.lb.isFin = true ∧ t.v.ub.isFin = true) →
      (∀ t ∈ ts, xle t.v.lb (.fin (σ t.v)) = true ∧ xle (.fin (σ t.v)) t.v.ub = true) →
      xle lbA (.fin s) = true → xle (.fin s) ubA = true →
      xle (boundsAux ts lbA ubA).1
        (.fin (List.foldl (fun a t => a + t.coeff * σ t.v) s ts)) = true ∧
      xle (.fin (List.foldl (fun a t => a + t.coeff * σ t.v) s ts))
        (boundsAux ts lbA ubA).2 = true := by
  intro ts
  induction ts with
  | nil =>
    intro lbA ubA s _ _ h1 h2
    exact ⟨by simpa [boundsAux] using h1, by simpa [boundsAux] using h2⟩
  | cons t ts ih =>
    intro lbA ubA s hfin hbnd hlb hub
    have hfin' : ∀ u ∈ ts, u.coeff = 0 → u.v.lb.isFin = true ∧ u.v.ub.isFin = true :=
      fun u hu => hfin u (List.mem_cons_of_mem _ hu)
    have hbnd' : ∀ u ∈ ts, xle u.v.lb (.fin (σ u.v)) = true ∧
        xle (.fin (σ u.v)) u.v.ub = true :=
      fun u hu => hbnd u (List.mem_cons_of_mem _ hu)
    have hbt := hbnd t (List.mem_cons_self _ _)
    rcases lt_trichotomy 0 t.coeff with hc | hc | hc
    · simp only [boundsAux, if_pos hc, List.foldl_cons]
      exact ih _ _ _ hfin' hbnd' (lb_step_pos hc hlb hbt.1) (ub_step_pos hc hub hbt.2)
    · have hz : t.coeff = 0 := hc.symm
      obtain ⟨hl, hu⟩ := hfin t (List.mem_cons_self _ _) hz
      obtain ⟨ql, hql⟩ := XReal.isFin_iff.mp hl
      obtain ⟨qu, hqu⟩ := XReal.isFin_iff.mp hu
      simp only [boundsAux, List.foldl_cons, hz, lt_irrefl, if_false, hql, hqu,
        jmul_zero_fin, jadd_fin_zero, zero_mul, add_zero]
      exact ih _ _ _ hfin' hbnd' hlb hub
    · simp only [boundsAux, if_neg (not_lt.mpr hc.le), List.foldl_cons]
      exact ih _ _ _ hfin' hbnd' (lb_step_neg hc hlb hbt.2) (ub_step_neg hc hub hbt.1)

/-- The zero assignment, used at the C3 failing input. -/
def sigmaZero : Var → ℚ := fun _ => 0

/-- C3: bound soundness of `exprBounds` holds whenever every zero-coefficient
term refers to a variable with finite bounds (first conjunct), and fails at
the concrete input `e = 0·x` with `x ∈ [0, ∞)` and assignment `x = 0`: the
evaluated value is 0, but the computed lower bound is NaN (from
`0 * Infinity` in the source's swapped branch), and the JS comparison
`lb <= value` is false, so the value does not lie within the returned
interval (remaining conjuncts). -/
theorem c3_bound_soundness :
    (∀ (e : LinExpr) (σ : Var → ℚ),
      (∀ t ∈ e.terms, t.coeff = 0 → t.v.lb.isFin = true ∧ t.v.ub.isFin = true) →
      (∀ t ∈ e.terms, xle t.v.lb (.fin (σ t.v)) = true ∧
        xle (.fin (σ t.v)) t.v.ub = true) →
      xle (exprBounds e).1 (.fin (e.eval σ)) = true ∧
      xle (.fin (e.eval σ)) (exprBounds e).2 = true) ∧
    zeroCoeffExpr.eval sigmaZero = 0 ∧
    exprBounds zeroCoeffExpr = (.nan, .fin 0) ∧
    xle (exprBounds zeroCoeffExpr).1 (.fin (zeroCoeffExpr.eval sigmaZero)) = false := by
  refine ⟨?_, by norm_num [zeroCoeffExpr, sigmaZero, LinExpr.eval],
    by norm_num [zeroCoeffExpr, exprBounds, boundsAux, jmul, jadd],
    by norm_num [zeroCoeffExpr, sigmaZero, LinExpr.eval, exprBounds, boundsAux,
      jmul, jadd, xle]⟩
  intro e σ hfin hbnd
  exact boundsAux_sound σ e.terms _ _ e.constant hfin hbnd (by simp [xle]) (by simp [xle])

/-- Instantiation of the soundness conjunct of `c3_bound_soundness` at the
expression `1 + 2·z − 1·y` with `z ∈ [1, 2]`, `y ∈ [0, 4]` and the zero
assignment extended by `z = 2, y = 3`: the value 2 lies within the computed
interval [−1, 5]. -/
theorem c3_bound_soundness_witness :
    xle (exprBounds ⟨[⟨2, ⟨"z", .continuous, .fin 1, .fin 2⟩⟩,
        ⟨-1, ⟨"y", .continuous, .fin 0, .fin 4⟩⟩], 1⟩).1
      (.fin ((⟨[⟨2, ⟨"z", .continuous, .fin 1, .fin 2⟩⟩,
        ⟨-1, ⟨"y", .continuous, .fin 0, .fin 4⟩⟩], 1⟩ : LinExpr).eval
          (fun v => if v.name = "z" then 2 else 3))) = true := by
  have h := c3_bound_soundness.1
    ⟨[⟨2, ⟨"z", .continuous, .fin 1, .fin 2⟩⟩,
      ⟨-1, ⟨"y", .continuous, .fin 0, .fin 4⟩⟩], 1⟩
    (fun v => if v.name = "z" then 2 else 3)
    (by intro t ht; fin_cases ht <;> norm_num)
    (by intro t ht; fin_cases ht <;> simp [xle] <;> norm_num)
  exact h.1

/-! ## C8 — equivalence of the two xor encodings -/

/-- The first operand of the xor demonstration (`x0`, binary). -/
def xorX : Var := (Model.empty.boolVar none).1

/-- The second operand (`x1`, binary). -/
def xorY : Var := ((Model.empty.boolVar none).2.boolVar none).1

/-- The model holding the two operands. -/
def xorBase : Model := ((Model.empty.boolVar none).2.boolVar none).2

/-- The constraints after `xor(x, y)` with the default `'constraints'`
method: the four inequalities on `z = x2`. -/
def xorDefaultCs : List Constraint := (xorBase.xorOp xorX xorY ⟨none⟩).2.constraints

/-- The constraints after `xor(x, y, {method: 'compact'})`: the three
`and`-constraints defining `w = x3` plus `z − x − y + 2w = 0`. -/
def xorCompactCs : List Constraint :=
  (xorBase.xorOp xorX xorY ⟨some .compact⟩).2.constraints

/-- 0/1 encoding of a boolean. -/
def bq : Bool → ℚ := fun b => if b then 1 else 0

/-- Assignment fixing `x0, x1` to the inputs, `x2` to the output `z`, and
`x3` (the compact method's auxiliary `w`) to the fourth boolean. -/
def sigmaXor (b1 b2 b3 b4 : Bool) : Var → ℚ := fun v =>
  if v.name = "x0" then bq b1
  else if v.name = "x1" then bq b2
  else if v.name = "x2" then bq b3
  else bq b4

/-- C8: over binary values of the operands and the output, the default
four-inequality encoding and the compact encoding (with its auxiliary `w`
existentially completed) accept exactly the same `z` values, and both accept
exactly `z = x XOR y`. -/
theorem c8_xor_encodings_equiv : ∀ b1 b2 b3 : Bool,
    (satAll xorDefaultCs (sigmaXor b1 b2 b3 false) ↔
      ∃ b4 : Bool, satAll xorCompactCs (sigmaXor b1 b2 b3 b4)) ∧
    (satAll xorDefaultCs (sigmaXor b1 b2 b3 false) ↔ b3 = xor b1 b2) := by
  intro b1 b2 b3
  cases b1 <;> cases b2 <;> cases b3 <;>
    constructor <;>
    simp [xorDefaultCs, xorCompactCs, xorBase, xorX, xorY, Model.xorOp, Model.boolVar,
      Model.freshVar, Model.empty, Model.andOp, Model.addConstraint, assertBinaryE,
      isBinaryV, Var.toExpr, Var.timesC, Var.negV, LinExpr.addE, LinExpr.subV,
      LinExpr.addV, LinExpr.negE, LinExpr.leqE, LinExpr.geqE, LinExpr.eqE, sumL,
      satAll, Constraint.sat, LinExpr.eval, sigmaXor, bq, natDecimal, natDigitsRev,
      natDigitsRevF, Bool.exists_bool, List.find?] <;>
    norm_num

/-! ## C1 — reification of `≤`, integral case -/

/-- The two constraints the spec prescribes for `reifyLeq`:
`expr + delta·M ≤ rhs + M` and `expr − delta·(m − ε) ≥ rhs + ε`. -/
def specReifyLeqPair (e : LinExpr) (rhs M mm eps : ℚ) (delta : Var) : List Constraint :=
  [(e.addE (delta.timesC M)).leqE (rhs + M),
   (e.subE (delta.timesC (mm - eps))).geqE (rhs + eps)]

/-- The integer variable `x ∈ [0, 10]` of the C1 scenario (`x0`). -/
def c1X : Var := (Model.empty.intVar (.fin 0) (.fin 10) none).1

/-- The model holding it. -/
def c1M1 : Model := (Model.empty.intVar (.fin 0) (.fin 10) none).2

/-- The two constraints emitted by `reify(x ≤ 5)` with default options:
`x + 5·delta ≤ 10` and `x + 6·delta ≥ 6`, with `delta = x1`. -/
def c1Cs : List Constraint := (c1M1.reifyOp (c1X.leqC 5) ⟨none, none⟩).2.constraints

/-- Assignment giving `x` the value `xv` and the reification binary `x1` the
value `dv`. -/
def sigmaC1 (xv dv : ℚ) : Var → ℚ := fun v => if v.name = "x1" then dv else xv

/-- The emitted constraints, reduced to plain arithmetic. -/
theorem c1_sat_iff (xv dv : ℚ) :
    satAll c1Cs (sigmaC1 xv dv) ↔ (xv + 5 * dv ≤ 10 ∧ 6 ≤ xv + 6 * dv) := by
  simp [c1Cs, c1M1, c1X, Model.reifyOp, Model.reifyLeqInternal, Model.intVar,
    Model.empty, Model.freshVar, Model.boolVar, Model.addConstraint, finiteBoundsE,
    exprBounds, boundsAux, jadd, jmul, defaultEpsilon, isIntegral, Var.leqC,
    Var.toExpr, Var.timesC, LinExpr.addE, LinExpr.subE, LinExpr.negE, LinExpr.leqE,
    LinExpr.geqE, satAll, Constraint.sat, LinExpr.eval, sigmaC1, natDecimal,
    natDigitsRev, natDigitsRevF]
  norm_num

/-- C1: (i) for `x` integer in `[0,10]` and `delta` ranging over `{0,1}`, a
satisfying completion of the two emitted reification constraints exists for
every such `x`, and every satisfying completion has `delta = 1` exactly when
`x ≤ 5` (so `delta = 1` on `{0..5}`, including the boundary `x = 5`, and
`delta = 0` on `{6..10}`); (ii) in general, on finite bounds `[lb, ub]`,
`reifyLeqInternal` returns a fresh binary and appends exactly the two spec
constraints with `M = ub − rhs`, `m = lb − rhs`, and epsilon defaulting to 1
when the expression and rhs are provably integral, else 1e-6. -/
theorem c1_reify_leq_exact :
    (∀ xv : ℤ, 0 ≤ xv → xv ≤ 10 →
      (∃ dv : ℚ, (dv = 0 ∨ dv = 1) ∧ satAll c1Cs (sigmaC1 (xv : ℚ) dv)) ∧
      (∀ dv : ℚ, (dv = 0 ∨ dv = 1) → satAll c1Cs (sigmaC1 (xv : ℚ) dv) →
        (dv = 1 ↔ xv ≤ 5))) ∧
    (∀ (m : Model) (e : LinExpr) (r lb ub : ℚ),
      exprBounds e = (.fin lb, .fin ub) →
      m.reifyLeqInternal e r ⟨none, none⟩ =
        (.ok ⟨"x" ++ natDecimal m.varCounter, .binary, .fin 0, .fin 1⟩,
         { m with varCounter := m.varCounter + 1,
                  vars := m.vars ++
                    [⟨"x" ++ natDecimal m.varCounter, .binary, .fin 0, .fin 1⟩],
                  constraints := m.constraints ++
                    specReifyLeqPair e r (ub - r) (lb - r)
                      (if isIntegral e && r.den == 1 then 1 else 1 / 1000000)
                      ⟨"x" ++ natDecimal m.varCounter, .binary, .fin 0, .fin 1⟩ })) := by
  constructor
  · intro xv h0 h10
    constructor
    · rcases le_or_lt xv 5 with h | h
      · refine ⟨1, Or.inr rfl, (c1_sat_iff _ _).mpr ⟨?_, ?_⟩⟩ <;>
        · have h5 : (xv : ℚ) ≤ 5 := by exact_mod_cast h
          have hq0 : (0 : ℚ) ≤ (xv : ℚ) := by exact_mod_cast h0
          linarith
      · refine ⟨0, Or.inl rfl, (c1_sat_iff _ _).mpr ⟨?_, ?_⟩⟩ <;>
        · have : (6 : ℚ) ≤ (xv : ℚ) := by exact_mod_cast h
          have : (xv : ℚ) ≤ 10 := by exact_mod_cast h10
          linarith
    · intro dv hdv hsat
      rw [c1_sat_iff] at hsat
      rcases hdv with rfl | rfl
      · constructor
        · intro h; norm_num at h
        · intro h; exfalso
          have : (xv : ℚ) ≤ 5 := by exact_mod_cast h
          linarith [hsat.2]
      · constructor
        · intro _
          have h1 : (xv : ℚ) + 5 ≤ 10 := by linarith [hsat.1]
          have : (xv : ℚ) ≤ 5 := by linarith
          exact_mod_cast this
        · intro _; rfl
  · intro m e r lb ub hb
    simp [Model.reifyLeqInternal, finiteBoundsE, hb, defaultEpsilon, Model.boolVar,
      Model.freshVar, Model.addConstraint, specReifyLeqPair]

/-- Instantiation of `c1_reify_leq_exact`: at the boundary `x = 5` the
completion `delta = 1` satisfies the emitted constraints and `delta = 0`
does not; and the emission shape at the constant expression `3 ≤ 3` over the
empty model. -/
theorem c1_reify_leq_exact_witness :
    satAll c1Cs (sigmaC1 5 1) ∧ ¬ satAll c1Cs (sigmaC1 5 0) ∧
    Model.reifyLeqInternal Model.empty ⟨[], 3⟩ 3 ⟨none, none⟩ =
      (.ok ⟨"x0", .binary, .fin 0, .fin 1⟩,
       { Model.empty with
            varCounter := 1
            vars := [⟨"x0", .binary, .fin 0, .fin 1⟩]
            constraints :=
              specReifyLeqPair ⟨[], 3⟩ 3 (3 - 3) (3 - 3)
                (if isIntegral ⟨[], 3⟩ && (3 : ℚ).den == 1 then 1 else 1 / 1000000)
                ⟨"x0", .binary, .fin 0, .fin 1⟩ }) := by
  have h := c1_reify_leq_exact
  have h5 := h.1 5 (by decide) (by decide)
  refine ⟨?_, ?_, ?_⟩
  · obtain ⟨dv, hdv, hsat⟩ := h5.1
    have : dv = 1 := (h5.2 dv hdv hsat).mpr (by decide)
    subst this
    exact hsat
  · intro hsat
    have := (h5.2 0 (Or.inl rfl) hsat).mpr (by decide)
    norm_num at this
  · have := h.2 Model.empty ⟨[], 3⟩ 3 3 3
      (by norm_num [exprBounds, boundsAux])
    simpa [Model.empty] using this

/-! ## C2 — reification of `=` -/

/-- The model after `reify(x = rhs)` on a continuous `x ∈ [lb, ub]` with an
explicit epsilon: four constraints over `delta = x1` and `mu = x2`. -/
def c2Param (lb ub rhs eps : ℚ) : Model :=
  ((Model.empty.numVar (.fin lb) (.fin ub) none).2.reifyOp
    ((Model.empty.numVar (.fin lb) (.fin ub) none).1.eqC rhs) ⟨none, some eps⟩).2

/-- Assignment giving `x` the value `xv`, `delta = x1` the value `dv` and
`mu = x2` the value `mv`. -/
def sigmaC2 (xv dv mv : ℚ) : Var → ℚ := fun v =>
  if v.name = "x1" then dv else if v.name = "x2" then mv else xv

/-- The four `reifyEq` inequalities with `M` abbreviated. -/
def c2Arith (M eps rhs v dv mv : ℚ) : Prop :=
  v + M * dv ≤ rhs + M ∧ rhs - M ≤ v - M * dv ∧
  rhs + eps ≤ v + (M + eps) * dv + (M + eps) * mv ∧
  v - (M + eps) * dv + (M + eps) * mv ≤ rhs - eps + (M + eps)

/-- The emitted `reifyEq` constraints, reduced to plain arithmetic with
`M = max(ub − rhs, rhs − lb)` as in the source. -/
theorem c2p_sat_iff (lb ub rhs eps v dv mv : ℚ) :
    satAll (c2Param lb ub rhs eps).constraints (sigmaC2 v dv mv) ↔
      c2Arith (max (ub - rhs) (rhs - lb)) eps rhs v dv mv := by
  simp [c2Param, Model.reifyOp, Model.reifyEqInternal, Model.numVar, Model.empty,
    Model.freshVar, Model.boolVar, Model.addConstraint, finiteBoundsE, exprBounds,
    boundsAux, jadd, jmul, Var.eqC, Var.toExpr, Var.timesC, LinExpr.addE,
    LinExpr.subE, LinExpr.negE, LinExpr.leqE, LinExpr.geqE, LinExpr.eqE, satAll,
    Constraint.sat, LinExpr.eval, sigmaC2, natDecimal, natDigitsRev, natDigitsRevF,
    c2Arith]
  intro h
  constructor <;> intro h2 <;> obtain ⟨h2a, h2b, h2c⟩ := h2 <;>
    exact ⟨by linarith, by linarith, by linarith⟩

/-- The constraints of the C2 counterexample instance: `x ∈ [0, 10]`
continuous, `reify(x = 5)` with the default epsilon `1e-6`. -/
def c2Cs : List Constraint :=
  ((Model.empty.numVar (.fin 0) (.fin 10) none).2.reifyOp
    ((Model.empty.numVar (.fin 0) (.fin 10) none).1.eqC 5) ⟨none, none⟩).2.constraints

/-- C2 counterexample: at the in-bounds value `x = 5 + 1e-7` (strictly
between `rhs` and `rhs + eps`), none of the four (delta, mu) completions in
{0,1}² satisfies the four emitted inequalities — the claimed existence of a
satisfying completion for every in-bounds assignment fails. -/
theorem c2_reify_eq_counterexample :
    (0 : ℚ) ≤ 5 + 1/10000000 ∧ (5 + 1/10000000 : ℚ) ≤ 10 ∧
    ¬ satAll c2Cs (sigmaC2 (5 + 1/10000000) 0 0) ∧
    ¬ satAll c2Cs (sigmaC2 (5 + 1/10000000) 0 1) ∧
    ¬ satAll c2Cs (sigmaC2 (5 + 1/10000000) 1 0) ∧
    ¬ satAll c2Cs (sigmaC2 (5 + 1/10000000) 1 1) := by
  refine ⟨by norm_num, by norm_num, ?_, ?_, ?_, ?_⟩ <;>
    simp [c2Cs, Model.reifyOp, Model.reifyEqInternal, Model.numVar, Model.empty,
      Model.freshVar, Model.boolVar, Model.addConstraint, finiteBoundsE, exprBounds,
      boundsAux, jadd, jmul, Var.eqC, Var.toExpr, Var.timesC, LinExpr.addE,
      LinExpr.subE, LinExpr.negE, LinExpr.leqE, LinExpr.geqE, LinExpr.eqE, satAll,
      Constraint.sat, LinExpr.eval, sigmaC2, natDecimal, natDigitsRev, natDigitsRevF,
      defaultEpsilon, isIntegral] <;>
    norm_num

/-- C2 as amended: for values of `expr` within its bounds that are either
equal to `rhs` or at least `eps` away from it, a satisfying completion of
`(delta, mu)` in {0,1}² exists; and in every satisfying completion,
`delta = 1` forces `expr = rhs` and `delta = 0` forces `|expr − rhs| ≥ eps`
(so `delta = 1` iff the equality holds, over such values). -/
theorem c2_reify_eq_amended (lb ub rhs eps v : ℚ) (hlb : lb ≤ v) (hub : v ≤ ub)
    (heps : 0 < eps) :
    ((v = rhs ∨ eps ≤ |v - rhs|) →
      ∃ dv mv : ℚ, (dv = 0 ∨ dv = 1) ∧ (mv = 0 ∨ mv = 1) ∧
        satAll (c2Param lb ub rhs eps).constraints (sigmaC2 v dv mv)) ∧
    (∀ dv mv : ℚ, (dv = 0 ∨ dv = 1) → (mv = 0 ∨ mv = 1) →
      satAll (c2Param lb ub rhs eps).constraints (sigmaC2 v dv mv) →
      ((dv = 1 → v = rhs) ∧ (dv = 0 → eps ≤ |v - rhs|))) := by
  have hM1 : ub - rhs ≤ max (ub - rhs) (rhs - lb) := le_max_left _ _
  have hM2 : rhs - lb ≤ max (ub - rhs) (rhs - lb) := le_max_right _ _
  constructor
  · intro hv
    rcases hv with rfl | habs
    · have hM0 : 0 ≤ max (ub - v) (v - lb) := le_trans (by linarith) (le_max_right _ _)
      refine ⟨1, 0, Or.inr rfl, Or.inl rfl, (c2p_sat_iff lb ub v eps v 1 0).mpr ?_⟩
      exact ⟨by linarith, by linarith, by nlinarith, by nlinarith⟩
    · rcases le_abs.mp habs with h | h
      · refine ⟨0, 0, Or.inl rfl, Or.inl rfl, (c2p_sat_iff lb ub rhs eps v 0 0).mpr ?_⟩
        exact ⟨by nlinarith, by nlinarith, by nlinarith, by nlinarith⟩
      · refine ⟨0, 1, Or.inl rfl, Or.inr rfl, (c2p_sat_iff lb ub rhs eps v 0 1).mpr ?_⟩
        exact ⟨by nlinarith, by nlinarith, by nlinarith, by nlinarith⟩
  · intro dv mv hdv hmv hsat
    obtain ⟨h1, h2, h3, h4⟩ := (c2p_sat_iff lb ub rhs eps v dv mv).mp hsat
    constructor
    · intro hd; subst hd
      have hv1 : v ≤ rhs := by linarith
      have hv2 : rhs ≤ v := by linarith
      linarith
    · intro hd; subst hd
      rcases hmv with rfl | rfl
      · exact le_abs.mpr (Or.inl (by linarith))
      · exact le_abs.mpr (Or.inr (by linarith))

/-- Instantiation of `c2_reify_eq_amended` at `x ∈ [0, 10]`, `rhs = 5`,
`eps = 1`, `x = 5`: a satisfying completion with `delta = 1` exists. -/
theorem c2_reify_eq_amended_witness :
    ∃ dv mv : ℚ, (dv = 0 ∨ dv = 1) ∧ (mv = 0 ∨ mv = 1) ∧
      satAll (c2Param 0 10 5 1).constraints (sigmaC2 5 dv mv) :=
  (c2_reify_eq_amended 0 10 5 1 5 (by norm_num) (by norm_num) (by norm_num)).1
    (Or.inl rfl)

/-! ## C9 — the RHS section moves the expression constant to the right -/

/-- The optional entry contributed by index `i` of the RHS loop. -/
def mpsRhsCell (cs : List Constraint) (ns : List String) (i : ℕ) :
    Option (String × ℚ) :=
  match cs[i]?, ns[i]? with
  | some c, some n =>
    if c.rhs - c.expr.constant ≠ 0 then some (n, c.rhs - c.expr.constant) else none
  | _, _ => none

theorem mpsConstraintNamesGo_length (cs : List Constraint) :
    ∀ i, (mpsConstraintNamesGo cs i).length = cs.length := by
  induction cs with
  | nil => intro i; simp [mpsConstraintNamesGo]
  | cons c cs ih =>
    intro i
    cases h : c.name <;> simp [mpsConstraintNamesGo, h, ih]

theorem mpsRhsStep_foldl (cs : List Constraint) (ns : List String) :
    ∀ (l : List ℕ) (acc : List (String × ℚ)),
      l.foldl (mpsRhsStep cs ns) acc = acc ++ l.filterMap (mpsRhsCell cs ns) := by
  intro l
  induction l with
  | nil => intro acc; simp
  | cons j l ih =>
    intro acc
    simp only [List.foldl_cons, List.filterMap_cons]
    rw [ih]
    unfold mpsRhsStep mpsRhsCell
    cases hc : cs[j]? with
    | none => simp
    | some c =>
      cases hn : ns[j]? with
      | none => simp
      | some n =>
        by_cases hz : c.rhs - c.expr.constant ≠ 0 <;> simp [hz]

theorem mpsRhsCell_range_eq_zip :
    ∀ (cs : List Constraint) (ns : List String), ns.length = cs.length →
      (List.range cs.length).filterMap (mpsRhsCell cs ns)
      = (cs.zip ns).filterMap (fun p =>
          if p.1.rhs - p.1.expr.constant ≠ 0 then some (p.2, p.1.rhs - p.1.expr.constant)
          else none) := by
  intro cs
  induction cs with
  | nil => intro ns _; simp
  | cons c cs ih =>
    intro ns hlen
    cases ns with
    | nil => simp at hlen
    | cons n ns =>
      simp only [List.length_cons] at hlen
      rw [show (c :: cs).length = cs.length + 1 from rfl, List.range_succ_eq_map,
        List.filterMap_cons, List.filterMap_map]
      have htail := ih ns (by omega)
      have hcell : ∀ i, mpsRhsCell (c :: cs) (n :: ns) (Nat.succ i) = mpsRhsCell cs ns i := by
        intro i
        unfold mpsRhsCell
        simp
      simp only [Function.comp_def, hcell]
      rw [htail, List.zip_cons_cons, List.filterMap_cons]
      unfold mpsRhsCell
      by_cases hz : c.rhs - c.expr.constant ≠ 0 <;> simp [hz]

/-- C9 counterexample: a constraint whose `rhs − constant` is zero receives
no RHS entry at all (the source's `if (rhs !== 0)` guard skips it), so the
serializer does not emit an entry for every constraint as the claim states. -/
theorem c9_rhs_counterexample :
    mpsRhsEntries [⟨⟨[⟨1, contA⟩], 0⟩, .le, 0, none⟩] = [] ∧
    ((⟨⟨[⟨1, contA⟩], 0⟩, .le, 0, none⟩ : Constraint).rhs -
      (⟨⟨[⟨1, contA⟩], 0⟩, .le, 0, none⟩ : Constraint).expr.constant) = 0 := by
  constructor
  · norm_num [mpsRhsEntries, mpsRhsStep, mpsConstraintNames, mpsConstraintNamesGo,
      List.range, List.range.loop]
  · norm_num

/-- C9 as amended: the RHS section equals, entry for entry, the spec-side
description — one entry per constraint in order, carrying the row name from
the ROWS section and the value `rhs − expr.constant` (the constant moved to
the right-hand side), with zero values omitted (the MPS default). -/
theorem c9_rhs_entries (cs : List Constraint) :
    mpsRhsEntries cs = specRhsEntries cs := by
  unfold mpsRhsEntries specRhsEntries
  rw [mpsRhsStep_foldl cs (mpsConstraintNames cs), List.nil_append,
    mpsRhsCell_range_eq_zip cs (mpsConstraintNames cs)
      (mpsConstraintNamesGo_length cs 0)]

/-! ## C4 — fail-fast without partial mutation -/

/-- Both computed bounds of an expression are finite (what `finiteBounds`
requires). -/
def finOkE (e : LinExpr) : Bool := (exprBounds e).1.isFin && (exprBounds e).2.isFin

theorem finiteBoundsE_error {e : LinExpr} (ctx : String) (h : finOkE e = false) :
    finiteBoundsE e ctx = .error (.unboundedBigM ctx) := by
  unfold finiteBoundsE
  rcases hEB : exprBounds e with ⟨a, b⟩
  unfold finOkE at h
  rw [hEB] at h
  cases a <;> cases b <;> simp_all [XReal.isFin]

theorem finiteBoundsV_error {v : Var} (ctx : String)
    (h : (v.lb.isFin && v.ub.isFin) = false) :
    finiteBoundsV v ctx = .error (.unboundedBigM ctx) := by
  unfold finiteBoundsV exprBoundsV
  cases hl : v.lb <;> cases hu : v.ub <;> simp_all [XReal.isFin]

theorem computeBigM_error {e : LinExpr} (r : ℚ) (s : Sense) (ctx : String)
    (h : finOkE e = false) :
    computeBigM e r s ctx = .error (.unboundedBigM ctx) := by
  unfold computeBigM
  rw [finiteBoundsE_error ctx h]

theorem find?_of_mem_not {vs : List Var} {v : Var} (hv : v ∈ vs)
    (h : isBinaryV v = false) :
    ∃ w, vs.find? (fun v => !isBinaryV v) = some w := by
  induction vs with
  | nil => cases hv
  | cons a vs ih =>
    by_cases ha : isBinaryV a = false
    · exact ⟨a, by simp [List.find?, ha]⟩
    · have ha' : isBinaryV a = true := by
        cases h2 : isBinaryV a
        · exact absurd h2 ha
        · rfl
      rcases List.mem_cons.mp hv with rfl | hv'
      · rw [ha'] at h; cases h
      · obtain ⟨w, hw⟩ := ih hv'
        exact ⟨w, by simp [List.find?, ha', hw]⟩

theorem mapM_boundsE_error {es : List LinExpr} {e : LinExpr} (ctx : String)
    (he : e ∈ es) (h : finOkE e = false) :
    ∃ er, es.mapM (fun e => finiteBoundsE e ctx) = (.error er : Except ModelError _) := by
  induction es with
  | nil => cases he
  | cons a es ih =>
    rw [List.mapM_cons]
    have hloop : List.mapM.loop (fun e => finiteBoundsE e ctx) es [] =
        List.mapM (fun e => finiteBoundsE e ctx) es := rfl
    cases hfa : finiteBoundsE a ctx with
    | error er => exact ⟨er, rfl⟩
    | ok b =>
      rcases List.mem_cons.mp he with rfl | he'
      · rw [finiteBoundsE_error ctx h] at hfa; cases hfa
      · obtain ⟨er, her⟩ := ih he'
        refine ⟨er, ?_⟩
        show List.cons b <$> List.mapM.loop (fun e => finiteBoundsE e ctx) es [] =
          Except.error er
        rw [hloop, her]
        rfl

/-- A variable with an infinite upper bound (`numVar(0, Infinity)`). -/
def unbX : Var := ⟨"u", .continuous, .fin 0, .pinf⟩

/-- The unbounded expression `1·u`. -/
def unbE : LinExpr := unbX.toExpr

/-- The model of the C4 counterexample: one unbounded continuous variable. -/
def c4M : Model := (Model.empty.numVar (.fin 0) .pinf none).2

/-- Its variable (`x0 ∈ [0, ∞)`). -/
def c4X : Var := (Model.empty.numVar (.fin 0) .pinf none).1

/-- C4 counterexample: `addEitherOr` on constraints over an unbounded
variable with no explicit bigM raises — but the model is not left as it was:
the selector binary has already been appended (constraints unchanged). -/
theorem c4_partial_mutation_counterexample :
    (c4M.addEitherOrOp (c4X.leqC 0) (c4X.leqC 1) ⟨none⟩).1 =
      .error (.unboundedBigM "addIndicator()") ∧
    (c4M.addEitherOrOp (c4X.leqC 0) (c4X.leqC 1) ⟨none⟩).2 ≠ c4M ∧
    (c4M.addEitherOrOp (c4X.leqC 0) (c4X.leqC 1) ⟨none⟩).2.vars.length =
      c4M.vars.length + 1 ∧
    (c4M.addEitherOrOp (c4X.leqC 0) (c4X.leqC 1) ⟨none⟩).2.constraints =
      c4M.constraints := by
  refine ⟨?_, ?_, ?_, ?_⟩ <;>
    simp [c4M, c4X, Model.addEitherOrOp, Model.addIndicatorOp, Model.numVar,
      Model.boolVar, Model.freshVar, Model.empty, assertBinaryE, isBinaryV,
      computeBigM, finiteBoundsE, exprBounds, boundsAux, jadd, jmul, Var.leqC,
      Var.toExpr, Var.timesC, LinExpr.leqE, natDecimal, natDigitsRev, natDigitsRevF,
      Model.addConstraint]

/-- C4 as amended: every precondition violation of the reformulation
primitives raises synchronously; all of them leave the Model exactly as it
was — except `addEitherOr`, which creates its selector binary before the
Big-M validation of its two indicator halves, so when that validation fails
on the first constraint it raises with exactly that one fresh variable
appended and no constraints added. -/
theorem c4_fail_fast_amended (m : Model) :
    (m.andOp [] = (.error (.invalidArity "and()"), m)) ∧
    (m.orOp [] = (.error (.invalidArity "or()"), m)) ∧
    (∀ (vs : List Var) (v : Var), 2 ≤ vs.length → v ∈ vs → isBinaryV v = false →
      (∃ er, m.andOp vs = (.error er, m)) ∧ (∃ er, m.orOp vs = (.error er, m))) ∧
    (∀ x : Var, isBinaryV x = false →
      m.notOp x = (.error (.invalidVariableKind "not()" x.name), m)) ∧
    (∀ (x y : Var) (o : XorOptions), (isBinaryV x = false ∨ isBinaryV y = false) →
      ∃ er, m.xorOp x y o = (.error er, m)) ∧
    (∀ (d : Var) (c : Constraint) (o : IndicatorOptions), isBinaryV d = false →
      m.addIndicatorOp d c o =
        (.error (.invalidVariableKind "addIndicator()" d.name), m)) ∧
    (∀ (d : Var) (c : Constraint) (act : Option Bool), isBinaryV d = true →
      finOkE c.expr = false →
      m.addIndicatorOp d c ⟨act, none⟩ = (.error (.unboundedBigM "addIndicator()"), m)) ∧
    (∀ e : ExprArg, finOkE e.toExpr = false →
      m.absOp e ⟨none⟩ = (.error (.unboundedBigM "abs()"), m)) ∧
    (∀ o : BigMOptions, m.maxOp [] o = (.error (.invalidArity "max()"), m)) ∧
    (∀ o : BigMOptions, m.minOp [] o = (.error (.invalidArity "min()"), m)) ∧
    (∀ (es : List ExprArg) (e : ExprArg), 2 ≤ es.length → e ∈ es →
      finOkE e.toExpr = false →
      (∃ er, m.maxOp es ⟨none⟩ = (.error er, m)) ∧
      (∃ er, m.minOp es ⟨none⟩ = (.error er, m))) ∧
    (∀ (x y : Var) (o : BigMOptions), isBinaryV x = false → isBinaryV y = false →
      m.productOp x y o = (.error .unsupportedProduct, m)) ∧
    (∀ x y : Var, isBinaryV x = true → isBinaryV y = false →
      (y.lb.isFin && y.ub.isFin) = false →
      m.productOp x y ⟨none⟩ = (.error (.unboundedBigM "product()"), m)) ∧
    (∀ x y : Var, isBinaryV x = false → isBinaryV y = true →
      (x.lb.isFin && x.ub.isFin) = false →
      m.productOp x y ⟨none⟩ = (.error (.unboundedBigM "product()"), m)) ∧
    (∀ (lb ub : ℚ) (name : Option String), lb ≤ 0 ∨ ub < lb →
      m.semiContVarOp lb ub name = (.error (.invalidRange "semiContVar()"), m)) ∧
    (∀ (e : ExprArg) (d : ℚ), ¬ d.den = 1 ∨ d ≤ 0 →
      m.divModOp e d = (.error (.invalidRange "divMod()"), m)) ∧
    (∀ (e : ExprArg) (d : ℚ), d.den = 1 → 0 < d → finOkE e.toExpr = false →
      m.divModOp e d = (.error (.unboundedBigM "divMod()"), m)) ∧
    (∀ (e : ExprArg) (d lb ub : ℚ), d.den = 1 → 0 < d →
      exprBounds e.toExpr = (.fin lb, .fin ub) → lb < 0 →
      m.divModOp e d = (.error (.negativeExpr "divMod()"), m)) ∧
    (∀ (e : LinExpr) (r : ℚ) (epsOpt : Option ℚ), finOkE e = false →
      m.reifyOp ⟨e, .le, r, none⟩ ⟨none, epsOpt⟩ =
        (.error (.unboundedBigM "reify()"), m)) ∧
    (∀ (e : LinExpr) (r : ℚ) (epsOpt : Option ℚ), finOkE e.negE = false →
      m.reifyOp ⟨e, .ge, r, none⟩ ⟨none, epsOpt⟩ =
        (.error (.unboundedBigM "reify()"), m)) ∧
    (∀ (e : LinExpr) (r : ℚ) (epsOpt : Option ℚ), finOkE e = false →
      m.reifyOp ⟨e, .eq, r, none⟩ ⟨none, epsOpt⟩ =
        (.error (.unboundedBigM "reify()"), m)) ∧
    (∀ c1 c2 : Constraint, finOkE c1.expr = false →
      m.addEitherOrOp c1 c2 ⟨none⟩ =
        (.error (.unboundedBigM "addIndicator()"),
         { m with
             vars := m.vars ++ [⟨"x" ++ natDecimal m.varCounter, .binary, .fin 0, .fin 1⟩]
             varCounter := m.varCounter + 1 })) := by
  refine ⟨rfl, rfl, ?_, ?_, ?_, ?_, ?_, ?_, fun o => rfl, fun o => rfl, ?_, ?_, ?_, ?_,
    ?_, ?_, ?_, ?_, ?_, ?_, ?_, ?_⟩
  · intro vs v hlen hv hbin
    match vs, hlen with
    | v1 :: v2 :: rest, _ =>
      obtain ⟨w, hw⟩ := find?_of_mem_not hv hbin
      constructor
      · exact ⟨.invalidVariableKind "and()" w.name, by simp [Model.andOp, hw]⟩
      · exact ⟨.invalidVariableKind "or()" w.name, by simp [Model.orOp, hw]⟩
  · intro x hx
    simp [Model.notOp, assertBinaryE, hx]
  · intro x y o hxy
    rcases hxy with hx | hy
    · exact ⟨.invalidVariableKind "xor()" x.name,
        by simp [Model.xorOp, assertBinaryE, hx]⟩
    · cases hx : isBinaryV x
      · exact ⟨.invalidVariableKind "xor()" x.name,
          by simp [Model.xorOp, assertBinaryE, hx]⟩
      · exact ⟨.invalidVariableKind "xor()" y.name,
          by simp [Model.xorOp, assertBinaryE, hx, hy]⟩
  · intro d c o hd
    simp [Model.addIndicatorOp, assertBinaryE, hd]
  · intro d c act hd hc
    have hbigM := computeBigM_error c.rhs Sense.le "addIndicator()" (e := c.expr) hc
    have hbigM2 := computeBigM_error c.rhs Sense.ge "addIndicator()" (e := c.expr) hc
    cases hs : c.sense <;>
      simp [Model.addIndicatorOp, assertBinaryE, hd, hs, hbigM, hbigM2]
  · intro e he
    simp [Model.absOp, finiteBoundsE_error "abs()" he]
  · intro es e hlen he hfe
    match es, hlen with
    | e1 :: e2 :: rest, _ =>
      constructor
      · obtain ⟨er, her⟩ :=
          mapM_boundsE_error "max()" (List.mem_map_of_mem ExprArg.toExpr he) hfe
        cases hb : boundsList (List.map ExprArg.toExpr (e1 :: e2 :: rest)) none "max()" with
        | error er0 =>
          simp only [List.map_cons] at hb
          exact ⟨er0, by simp [Model.maxOp, hb]⟩
        | ok bs =>
          rw [boundsList, her] at hb
          cases hb
      · obtain ⟨er, her⟩ :=
          mapM_boundsE_error "min()" (List.mem_map_of_mem ExprArg.toExpr he) hfe
        cases hb : boundsList (List.map ExprArg.toExpr (e1 :: e2 :: rest)) none "min()" with
        | error er0 =>
          simp only [List.map_cons] at hb
          exact ⟨er0, by simp [Model.minOp, hb]⟩
        | ok bs =>
          rw [boundsList, her] at hb
          cases hb
  · intro x y o hx hy
    simp [Model.productOp, hx, hy]
  · intro x y hx hy hb
    simp [Model.productOp, hx, hy, finiteBoundsV_error "product()" hb]
  · intro x y hx hy hb
    simp [Model.productOp, hx, hy, finiteBoundsV_error "product()" hb]
  · intro lb ub name h
    rcases h with h | h <;> simp [Model.semiContVarOp, h]
  · intro e d h
    rcases h with h | h
    · have : (d.den == 1) = false := by simpa using h
      simp [Model.divModOp, this]
    · by_cases hden : d.den == 1 <;> simp [Model.divModOp, hden, h]
  · intro e d hden hd hfe
    have h1 : (d.den == 1) = true := by simpa using hden
    simp [Model.divModOp, h1, not_le.mpr hd, finiteBoundsE_error "divMod()" hfe]
  · intro e d lb ub hden hd hb hlb
    have h1 : (d.den == 1) = true := by simpa using hden
    simp [Model.divModOp, h1, not_le.mpr hd, finiteBoundsE, hb, hlb]
  · intro e r epsOpt h
    simp [Model.reifyOp, Model.reifyLeqInternal, finiteBoundsE_error "reify()" h]
  · intro e r epsOpt h
    simp [Model.reifyOp, Model.reifyLeqInternal, finiteBoundsE_error "reify()" h]
  · intro e r epsOpt h
    simp [Model.reifyOp, Model.reifyEqInternal, finiteBoundsE_error "reify()" h]
  · intro c1 c2 h
    have hM1 := computeBigM_error c1.rhs Sense.le "addIndicator()" (e := c1.expr) h
    have hM2 := computeBigM_error c1.rhs Sense.ge "addIndicator()" (e := c1.expr) h
    cases hs : c1.sense <;>
      simp [Model.addEitherOrOp, Model.addIndicatorOp, Model.boolVar, Model.freshVar,
        assertBinaryE, isBinaryV, hs, hM1, hM2]

/-- A continuous variable with a negative lower bound, for the divMod
witness. -/
def negX : Var := ⟨"n", .continuous, .fin (-1), .fin 1⟩

/-- Instantiation of every conjunct of `c4_fail_fast_amended` at concrete
inputs over the empty model. -/
theorem c4_fail_fast_amended_witness :
    (Model.empty.andOp [] = (.error (.invalidArity "and()"), Model.empty)) ∧
    (Model.empty.orOp [] = (.error (.invalidArity "or()"), Model.empty)) ∧
    (∃ er, Model.empty.andOp [contA, binB] = (.error er, Model.empty)) ∧
    (∃ er, Model.empty.orOp [contA, binB] = (.error er, Model.empty)) ∧
    (Model.empty.notOp contA =
      (.error (.invalidVariableKind "not()" "a"), Model.empty)) ∧
    (∃ er, Model.empty.xorOp contA binB ⟨none⟩ = (.error er, Model.empty)) ∧
    (Model.empty.addIndicatorOp contA (binB.leqC 1) ⟨none, none⟩ =
      (.error (.invalidVariableKind "addIndicator()" "a"), Model.empty)) ∧
    (Model.empty.addIndicatorOp binB ⟨unbE, .le, 0, none⟩ ⟨none, none⟩ =
      (.error (.unboundedBigM "addIndicator()"), Model.empty)) ∧
    (Model.empty.absOp (.V unbX) ⟨none⟩ =
      (.error (.unboundedBigM "abs()"), Model.empty)) ∧
    (Model.empty.maxOp [] ⟨none⟩ = (.error (.invalidArity "max()"), Model.empty)) ∧
    (Model.empty.minOp [] ⟨none⟩ = (.error (.invalidArity "min()"), Model.empty)) ∧
    (∃ er, Model.empty.maxOp [.V unbX, .V binB] ⟨none⟩ = (.error er, Model.empty)) ∧
    (∃ er, Model.empty.minOp [.V unbX, .V binB] ⟨none⟩ = (.error er, Model.empty)) ∧
    (Model.empty.productOp contA contA ⟨none⟩ =
      (.error .unsupportedProduct, Model.empty)) ∧
    (Model.empty.productOp binB unbX ⟨none⟩ =
      (.error (.unboundedBigM "product()"), Model.empty)) ∧
    (Model.empty.productOp unbX binB ⟨none⟩ =
      (.error (.unboundedBigM "product()"), Model.empty)) ∧
    (Model.empty.semiContVarOp 0 10 none =
      (.error (.invalidRange "semiContVar()"), Model.empty)) ∧
    (Model.empty.divModOp (.V unbX) 0 =
      (.error (.invalidRange "divMod()"), Model.empty)) ∧
    (Model.empty.divModOp (.V unbX) 3 =
      (.error (.unboundedBigM "divMod()"), Model.empty)) ∧
    (Model.empty.divModOp (.V negX) 3 =
      (.error (.negativeExpr "divMod()"), Model.empty)) ∧
    (Model.empty.reifyOp ⟨unbE, .le, 0, none⟩ ⟨none, none⟩ =
      (.error (.unboundedBigM "reify()"), Model.empty)) ∧
    (Model.empty.reifyOp ⟨unbE, .ge, 0, none⟩ ⟨none, none⟩ =
      (.error (.unboundedBigM "reify()"), Model.empty)) ∧
    (Model.empty.reifyOp ⟨unbE, .eq, 0, none⟩ ⟨none, none⟩ =
      (.error (.unboundedBigM "reify()"), Model.empty)) ∧
    (Model.empty.addEitherOrOp ⟨unbE, .le, 0, none⟩ ⟨unbE, .le, 1, none⟩ ⟨none⟩ =
      (.error (.unboundedBigM "addIndicator()"),
       { Model.empty with
           vars := [⟨"x0", .binary, .fin 0, .fin 1⟩]
           varCounter := 1 })) := by
  obtain ⟨h1, h2, h3, h4, h5, h6, h7, h8, h9, h10, h11, h12, h13, h14, h15, h16,
    h17, h18, h19, h20, h21, h22⟩ := c4_fail_fast_amended Model.empty
  have hA : isBinaryV contA = false := by decide
  have hB : isBinaryV binB = true := by decide
  have hU : finOkE unbE = false := by decide
  have hUneg : finOkE unbE.negE = false := by decide
  have hUv : (unbX.lb.isFin && unbX.ub.isFin) = false := by decide
  have hUb : isBinaryV unbX = false := by decide
  have h3x := h3 [contA, binB] contA (by decide) (List.mem_cons_self _ _) hA
  have h11x := h11 [.V unbX, .V binB] (.V unbX) (by decide)
    (List.mem_cons_self _ _) hU
  exact ⟨h1, h2, h3x.1, h3x.2, h4 contA hA, h5 contA binB ⟨none⟩ (Or.inl hA),
    h6 contA (binB.leqC 1) ⟨none, none⟩ hA,
    h7 binB ⟨unbE, .le, 0, none⟩ none hB hU,
    h8 (.V unbX) hU, h9 ⟨none⟩, h10 ⟨none⟩, h11x.1, h11x.2,
    h12 contA contA ⟨none⟩ hA hA, h13 binB unbX hB hUb hUv,
    h14 unbX binB hUb hB hUv,
    h15 0 10 none (Or.inl (by norm_num)),
    h16 (.V unbX) 0 (Or.inr (by norm_num)),
    h17 (.V unbX) 3 (by norm_num) (by norm_num) hU,
    h18 (.V negX) 3 (0 + 1 * (-1)) (0 + 1 * 1) (by norm_num) (by norm_num)
      (by simp [ExprArg.toExpr, Var.toExpr, Var.timesC, negX, exprBounds,
        boundsAux, jadd, jmul]) (by norm_num),
    h19 unbE 0 none hU, h20 unbE 0 none hUneg, h21 unbE 0 none hU,
    h22 ⟨unbE, .le, 0, none⟩ ⟨unbE, .le, 1, none⟩ hU⟩

/-! ## C7 — name uniqueness -/

/-- Value of a little-endian decimal digit list. -/
def ofDigitsRev : List ℕ → ℕ
  | [] => 0
  | d :: ds => d + 10 * ofDigitsRev ds

theorem natDigitsRevF_spec : ∀ (fuel n : ℕ), n < fuel →
    ofDigitsRev (natDigitsRevF fuel n) = n := by
  intro fuel
  induction fuel with
  | zero => intro n h; omega
  | succ f ih =>
    intro n h
    by_cases h10 : n < 10
    · simp [natDigitsRevF, h10, ofDigitsRev]
    · have hpos : 0 < n := by omega
      have hdiv : n / 10 < n := Nat.div_lt_self hpos (by omega)
      have : ofDigitsRev (natDigitsRevF f (n / 10)) = n / 10 := ih _ (by omega)
      simp [natDigitsRevF, h10, ofDigitsRev, this, Nat.mod_add_div]

theorem natDigitsRevF_lt_ten : ∀ (fuel n : ℕ), ∀ d ∈ natDigitsRevF fuel n, d < 10 := by
  intro fuel
  induction fuel with
  | zero => intro n d hd; simp [natDigitsRevF] at hd
  | succ f ih =>
    intro n d hd
    by_cases h10 : n < 10
    · simp [natDigitsRevF, h10] at hd
      omega
    · simp [natDigitsRevF, h10] at hd
      rcases hd with rfl | hd
      · omega
      · exact ih _ _ hd

theorem digitChar_toNat : ∀ d, d < 10 → (Char.ofNat (48 + d)).toNat = 48 + d := by
  intro d h
  interval_cases d <;> rfl

theorem map_digitChar_inj : ∀ l1 l2 : List ℕ, (∀ d ∈ l1, d < 10) → (∀ d ∈ l2, d < 10) →
    l1.map (fun d => Char.ofNat (48 + d)) = l2.map (fun d => Char.ofNat (48 + d)) →
    l1 = l2 := by
  intro l1
  induction l1 with
  | nil =>
    intro l2 _ _ h
    cases l2 with
    | nil => rfl
    | cons b l2 => simp at h
  | cons a l1 ih =>
    intro l2 h1 h2 h
    cases l2 with
    | nil => simp at h
    | cons b l2 =>
      simp only [List.map_cons, List.cons.injEq] at h
      have ha : a < 10 := h1 a (List.mem_cons_self _ _)
      have hb : b < 10 := h2 b (List.mem_cons_self _ _)
      have hab : a = b := by
        have := congrArg Char.toNat h.1
        rw [digitChar_toNat a ha, digitChar_toNat b hb] at this
        omega
      have htl := ih l2 (fun d hd => h1 d (List.mem_cons_of_mem _ hd))
        (fun d hd => h2 d (List.mem_cons_of_mem _ hd)) h.2
      rw [hab, htl]

theorem natDecimal_inj : Function.Injective natDecimal := by
  intro m n h
  have hdata : (natDecimal m).data = (natDecimal n).data := congrArg String.data h
  have hrev : ((natDigitsRev m).reverse.map (fun d => Char.ofNat (48 + d))) =
      ((natDigitsRev n).reverse.map (fun d => Char.ofNat (48 + d))) := hdata
  have hdig : (natDigitsRev m).reverse = (natDigitsRev n).reverse :=
    map_digitChar_inj _ _
      (fun d hd => natDigitsRevF_lt_ten _ _ d (List.mem_reverse.mp hd))
      (fun d hd => natDigitsRevF_lt_ten _ _ d (List.mem_reverse.mp hd)) hrev
  have hdig2 : natDigitsRev m = natDigitsRev n := List.reverse_injective hdig
  have hm := natDigitsRevF_spec (m + 1) m (by omega)
  have hn := natDigitsRevF_spec (n + 1) n (by omega)
  rw [show natDigitsRevF (m + 1) m = natDigitsRev m from rfl] at hm
  rw [show natDigitsRevF (n + 1) n = natDigitsRev n from rfl] at hn
  rw [← hm, ← hn, hdig2]

theorem prefix_natDecimal_inj (p : String) : ∀ i j : ℕ,
    p ++ natDecimal i = p ++ natDecimal j → i = j := by
  intro i j h
  have hdata : p.data ++ (natDecimal i).data = p.data ++ (natDecimal j).data :=
    congrArg String.data h
  have : (natDecimal i).data = (natDecimal j).data :=
    List.append_cancel_left hdata
  exact natDecimal_inj (by cases hni : natDecimal i <;> cases hnj : natDecimal j <;>
    simp_all)

/-- The name invariant: every variable name is a generated `x<i>` with the
indices strictly increasing and below the counter, and every constraint is
unnamed. This is what holds when the caller never supplies a name. -/
def NameInv (m : Model) : Prop :=
  (∃ l : List ℕ, m.vars.map Var.name = l.map (fun i => "x" ++ natDecimal i) ∧
    l.Pairwise (· < ·) ∧ ∀ i ∈ l, i < m.varCounter) ∧
  ∀ c ∈ m.constraints, c.name = none

theorem inv_empty : NameInv Model.empty := by
  constructor
  · exact ⟨[], by simp [Model.empty], by simp, by simp⟩
  · intro c hc
    simp [Model.empty] at hc

theorem inv_freshVar {m : Model} (ty : VarType) (lb ub : XReal) (h : NameInv m) :
    NameInv (m.freshVar ty lb ub none).2 := by
  obtain ⟨⟨l, hmap, hpw, hbd⟩, hc⟩ := h
  constructor
  · refine ⟨l ++ [m.varCounter], ?_, ?_, ?_⟩
    · simp [Model.freshVar, hmap]
    · rw [List.pairwise_append]
      refine ⟨hpw, List.pairwise_singleton _ _, ?_⟩
      intro a ha b hb
      simp at hb
      subst hb
      exact hbd a ha
    · intro i hi
      rcases List.mem_append.mp hi with hi | hi
      · have := hbd i hi
        simp [Model.freshVar]
        omega
      · simp at hi
        subst hi
        simp [Model.freshVar]
  · intro c hc2
    exact hc c (by simpa [Model.freshVar] using hc2)

theorem inv_addConstraint {m : Model} {c : Constraint} (hcn : c.name = none)
    (h : NameInv m) : NameInv (m.addConstraint c none) := by
  obtain ⟨hv, hc⟩ := h
  constructor
  · simpa [Model.addConstraint] using hv
  · intro c2 hc2
    simp [Model.addConstraint] at hc2
    rcases hc2 with hc2 | rfl
    · exact hc c2 hc2
    · exact hcn

theorem inv_foldl {α : Type} (f : Model → α → Model)
    (hf : ∀ m a, NameInv m → NameInv (f m a)) :
    ∀ (l : List α) (m : Model), NameInv m → NameInv (l.foldl f m) := by
  intro l
  induction l with
  | nil => intro m h; exact h
  | cons a l ih => intro m h; exact ih _ (hf m a h)

theorem inv_foldl_pair {α β : Type} (f : β × Model → α → β × Model)
    (hf : ∀ p a, NameInv p.2 → NameInv (f p a).2) :
    ∀ (l : List α) (p : β × Model), NameInv p.2 → NameInv (l.foldl f p).2 := by
  intro l
  induction l with
  | nil => intro p h; exact h
  | cons a l ih => intro p h; exact ih _ (hf p a h)

theorem inv_numVar {m : Model} (lb ub : XReal) (h : NameInv m) :
    NameInv (m.numVar lb ub none).2 := inv_freshVar _ _ _ h

theorem inv_intVar {m : Model} (lb ub : XReal) (h : NameInv m) :
    NameInv (m.intVar lb ub none).2 := inv_freshVar _ _ _ h

theorem inv_boolVar {m : Model} (h : NameInv m) :
    NameInv (m.boolVar none).2 := inv_freshVar _ _ _ h

theorem inv_andOp {m : Model} (vs : List Var) (h : NameInv m) :
    NameInv (m.andOp vs).2 := by
  unfold Model.andOp
  match vs with
  | [] => exact h
  | [v] => exact h
  | v1 :: v2 :: rest =>
    cases hf : (v1 :: v2 :: rest).find? (fun v => !isBinaryV v) with
    | some w => exact h
    | none =>
      refine inv_addConstraint rfl ?_
      exact inv_foldl _ (fun m v hm => inv_addConstraint rfl hm) _ _ (inv_boolVar h)

theorem inv_orOp {m : Model} (vs : List Var) (h : NameInv m) :
    NameInv (m.orOp vs).2 := by
  unfold Model.orOp
  match vs with
  | [] => exact h
  | [v] => exact h
  | v1 :: v2 :: rest =>
    cases hf : (v1 :: v2 :: rest).find? (fun v => !isBinaryV v) with
    | some w => exact h
    | none =>
      refine inv_addConstraint rfl ?_
      exact inv_foldl _ (fun m v hm => inv_addConstraint rfl hm) _ _ (inv_boolVar h)

theorem inv_notOp {m : Model} (x : Var) (h : NameInv m) :
    NameInv (m.notOp x).2 := by
  unfold Model.notOp
  cases assertBinaryE x "not()" with
  | error er => exact h
  | ok _ => exact inv_addConstraint rfl (inv_boolVar h)

theorem inv_xorOp {m : Model} (x y : Var) (o : XorOptions) (h : NameInv m) :
    NameInv (m.xorOp x y o).2 := by
  unfold Model.xorOp
  cases assertBinaryE x "xor()" with
  | error er => exact h
  | ok _ =>
    cases assertBinaryE y "xor()" with
    | error er => exact h
    | ok _ =>
      by_cases hm : o.method == some XorMethod.compact
      · simp only [hm, if_true]
        have h2 := inv_andOp [x, y] (inv_boolVar h (m := m))
        cases hand : ((m.boolVar none).2.andOp [x, y]) with
        | mk r m2 =>
          cases r with
          | error er =>
            have := h2
            rw [hand] at this
            exact this
          | ok w =>
            have := h2
            rw [hand] at this
            exact inv_addConstraint rfl this
      · simp only [hm, if_false]
        exact inv_addConstraint rfl (inv_addConstraint rfl (inv_addConstraint rfl
          (inv_addConstraint rfl (inv_boolVar h))))

theorem inv_addImplication {m : Model} (x y : Var) (h : NameInv m) :
    NameInv (m.addImplicationOp x y).2 := by
  unfold Model.addImplicationOp
  cases assertBinaryE x "addImplication()" with
  | error er => exact h
  | ok _ =>
    cases assertBinaryE y "addImplication()" with
    | error er => exact h
    | ok _ => exact inv_addConstraint rfl h

theorem inv_addAtMost {m : Model} (k : ℚ) (vs : List Var) (h : NameInv m) :
    NameInv (m.addAtMostOp k vs).2 := by
  unfold Model.addAtMostOp
  cases vs.find? (fun v => !isBinaryV v) with
  | some w => exact h
  | none => exact inv_addConstraint rfl h

theorem inv_addAtLeast {m : Model} (k : ℚ) (vs : List Var) (h : NameInv m) :
    NameInv (m.addAtLeastOp k vs).2 := by
  unfold Model.addAtLeastOp
  cases vs.find? (fun v => !isBinaryV v) with
  | some w => exact h
  | none => exact inv_addConstraint rfl h

theorem inv_addExactly {m : Model} (k : ℚ) (vs : List Var) (h : NameInv m) :
    NameInv (m.addExactlyOp k vs).2 := by
  unfold Model.addExactlyOp
  cases vs.find? (fun v => !isBinaryV v) with
  | some w => exact h
  | none => exact inv_addConstraint rfl h

theorem inv_addIndicator {m : Model} (d : Var) (c : Constraint)
    (o : IndicatorOptions) (h : NameInv m) : NameInv (m.addIndicatorOp d c o).2 := by
  unfold Model.addIndicatorOp
  cases assertBinaryE d "addIndicator()" with
  | error er => exact h
  | ok _ =>
    by_cases h1 : c.sense == Sense.le || c.sense == Sense.eq <;>
      simp only [h1, if_true, if_false] <;>
      [skip; skip] <;>
      first
      | (cases hbm : (match o.bigM with
          | some b => Except.ok b
          | none => computeBigM c.expr c.rhs Sense.le "addIndicator()") with
        | error er => exact h
        | ok M =>
          by_cases hact : o.active.getD true <;>
            simp only [hact, if_true, if_false] <;>
            [have h2 : NameInv (m.addConstraint ((c.expr.addE (d.timesC M)).leqE (c.rhs + M)) none) := inv_addConstraint rfl h;
             have h2 : NameInv (m.addConstraint ((c.expr.subE (d.timesC M)).leqE c.rhs) none) := inv_addConstraint rfl h] <;>
            (by_cases hge : c.sense == Sense.ge || c.sense == Sense.eq <;>
              simp only [hge, if_true, if_false] <;>
              first
              | (cases hbm2 : (match o.bigM with
                  | some b => Except.ok b
                  | none => computeBigM c.expr c.rhs Sense.ge "addIndicator()") with
                | error er => exact h2
                | ok M2 =>
                  by_cases hact2 : o.active.getD true <;>
                    simp only [hact2, if_true, if_false] <;>
                    exact inv_addConstraint rfl h2)
              | exact h2))
      | (by_cases hge : c.sense == Sense.ge || c.sense == Sense.eq <;>
          simp only [hge, if_true, if_false] <;>
          first
          | (cases hbm2 : (match o.bigM with
              | some b => Except.ok b
              | none => computeBigM c.expr c.rhs Sense.ge "addIndicator()") with
            | error er => exact h
            | ok M2 =>
              by_cases hact2 : o.active.getD true <;>
                simp only [hact2, if_true, if_false] <;>
                exact inv_addConstraint rfl h)
          | exact h)

theorem inv_addEitherOr {m : Model} (c1 c2 : Constraint) (o : BigMOptions)
    (h : NameInv m) : NameInv (m.addEitherOrOp c1 c2 o).2 := by
  have h1 := inv_addIndicator (m := (m.boolVar none).2) (m.boolVar none).1 c1
    ⟨some false, o.bigM⟩ (inv_boolVar h)
  have h2 := inv_addIndicator
    (m := ((m.boolVar none).2.addIndicatorOp (m.boolVar none).1 c1
      ⟨some false, o.bigM⟩).2)
    (m.boolVar none).1 c2 ⟨some true, o.bigM⟩ h1
  unfold Model.addEitherOrOp
  rcases hbv : m.boolVar none with ⟨delta, m1⟩
  rw [hbv] at h1 h2
  dsimp only at h1 h2 ⊢
  rcases hI : m1.addIndicatorOp delta c1 ⟨some false, o.bigM⟩ with ⟨r, m2⟩
  rw [hI] at h1 h2
  dsimp only at h1 h2 ⊢
  cases r with
  | error er => exact h1
  | ok _ => exact h2

theorem inv_absOp {m : Model} (e : ExprArg) (o : BigMOptions) (h : NameInv m) :
    NameInv (m.absOp e o).2 := by
  unfold Model.absOp
  dsimp only
  split <;> try split
  all_goals first
    | exact h
    | exact inv_addConstraint rfl (inv_addConstraint rfl (inv_addConstraint rfl
        (inv_addConstraint rfl (inv_numVar _ _ (inv_boolVar
          (inv_numVar _ _ (inv_numVar _ _ h)))))))

theorem inv_maxOp {m : Model} (es : List ExprArg) (o : BigMOptions) (h : NameInv m) :
    NameInv (m.maxOp es o).2 := by
  unfold Model.maxOp
  match es with
  | [] => exact h
  | [e] =>
    cases e with
    | V v => exact h
    | E ex => exact inv_addConstraint rfl (inv_numVar _ _ h)
  | e1 :: e2 :: rest =>
    dsimp only
    split
    · exact h
    · split
      · exact h
      · refine inv_addConstraint rfl (inv_foldl _ ?_ _ _ ?_)
        · exact fun m p hm => inv_addConstraint rfl (inv_addConstraint rfl hm)
        · refine inv_numVar _ _ (inv_foldl_pair _ ?_ _ _ ?_)
          · exact fun p a hp => inv_boolVar hp
          · exact h

theorem inv_minOp {m : Model} (es : List ExprArg) (o : BigMOptions) (h : NameInv m) :
    NameInv (m.minOp es o).2 := by
  unfold Model.minOp
  match es with
  | [] => exact h
  | [e] =>
    cases e with
    | V v => exact h
    | E ex => exact inv_addConstraint rfl (inv_numVar _ _ h)
  | e1 :: e2 :: rest =>
    dsimp only
    split
    · exact h
    · split
      · exact h
      · refine inv_addConstraint rfl (inv_foldl _ ?_ _ _ ?_)
        · exact fun m p hm => inv_addConstraint rfl (inv_addConstraint rfl hm)
        · refine inv_foldl_pair _ ?_ _ _ ?_
          · exact fun p a hp => inv_boolVar hp
          · exact inv_numVar _ _ h

theorem inv_productOp {m : Model} (x y : Var) (o : BigMOptions) (h : NameInv m) :
    NameInv (m.productOp x y o).2 := by
  unfold Model.productOp
  dsimp only
  by_cases h1 : (isBinaryV x && isBinaryV y) = true
  · rw [if_pos h1]
    exact inv_andOp _ h
  · rw [if_neg h1]
    by_cases h2 : (!isBinaryV x && !isBinaryV y) = true
    · rw [if_pos h2]
      exact h
    · rw [if_neg h2]
      split <;> try split
      all_goals first
        | exact h
        | exact inv_addConstraint rfl (inv_addConstraint rfl (inv_addConstraint rfl
            (inv_addConstraint rfl (inv_numVar _ _ h))))

theorem inv_semiContVar {m : Model} (lb ub : ℚ) (h : NameInv m) :
    NameInv (m.semiContVarOp lb ub none).2 := by
  unfold Model.semiContVarOp
  split
  · exact h
  · exact inv_addConstraint rfl (inv_addConstraint rfl
      (inv_boolVar (inv_numVar _ _ h)))

theorem inv_divModOp {m : Model} (e : ExprArg) (d : ℚ) (h : NameInv m) :
    NameInv (m.divModOp e d).2 := by
  unfold Model.divModOp
  dsimp only
  split
  · exact h
  · split
    · exact h
    · split
      · exact h
      · exact inv_addConstraint rfl (inv_intVar _ _ (inv_intVar _ _ h))

theorem inv_reifyLeq {m : Model} (e : LinExpr) (r : ℚ) (o : ReifyOptions)
    (h : NameInv m) : NameInv (m.reifyLeqInternal e r o).2 := by
  obtain ⟨obm, oeps⟩ := o
  unfold Model.reifyLeqInternal
  dsimp only
  cases obm with
  | some b =>
    exact inv_addConstraint rfl (inv_addConstraint rfl (inv_boolVar h))
  | none =>
    cases hF : finiteBoundsE e "reify()" with
    | error er => exact h
    | ok p =>
      exact inv_addConstraint rfl (inv_addConstraint rfl (inv_boolVar h))

theorem inv_reifyEq {m : Model} (e : LinExpr) (r : ℚ) (o : ReifyOptions)
    (h : NameInv m) : NameInv (m.reifyEqInternal e r o).2 := by
  obtain ⟨obm, oeps⟩ := o
  unfold Model.reifyEqInternal
  dsimp only
  cases obm with
  | some b =>
    exact inv_addConstraint rfl (inv_addConstraint rfl (inv_addConstraint rfl
      (inv_addConstraint rfl (inv_boolVar (inv_boolVar h)))))
  | none =>
    cases hF : finiteBoundsE e "reify()" with
    | error er => exact h
    | ok p =>
      exact inv_addConstraint rfl (inv_addConstraint rfl (inv_addConstraint rfl
        (inv_addConstraint rfl (inv_boolVar (inv_boolVar h)))))

theorem inv_reifyOp {m : Model} (c : Constraint) (o : ReifyOptions)
    (h : NameInv m) : NameInv (m.reifyOp c o).2 := by
  unfold Model.reifyOp
  cases c.sense with
  | le => exact inv_reifyLeq _ _ _ h
  | ge => exact inv_reifyLeq _ _ _ h
  | eq => exact inv_reifyEq _ _ _ h

theorem inv_applyOp {m : Model} (op : MOp) (h : NameInv m) :
    NameInv (applyOp m op) := by
  cases op with
  | numVarO lb ub => exact inv_numVar _ _ h
  | intVarO lb ub => exact inv_intVar _ _ h
  | boolVarO => exact inv_boolVar h
  | addConstraintO e s r => exact inv_addConstraint rfl h
  | minimizeO e =>
    obtain ⟨hv, hc⟩ := h
    exact ⟨by simpa [applyOp, Model.minimizeOp] using hv,
      fun c hc2 => hc c (by simpa [applyOp, Model.minimizeOp] using hc2)⟩
  | maximizeO e =>
    obtain ⟨hv, hc⟩ := h
    exact ⟨by simpa [applyOp, Model.maximizeOp] using hv,
      fun c hc2 => hc c (by simpa [applyOp, Model.maximizeOp] using hc2)⟩
  | andO vs => exact inv_andOp _ h
  | orO vs => exact inv_orOp _ h
  | notO v => exact inv_notOp _ h
  | xorO x y o => exact inv_xorOp _ _ _ h
  | implicationO x y => exact inv_addImplication _ _ h
  | atMostO k vs => exact inv_addAtMost _ _ h
  | atLeastO k vs => exact inv_addAtLeast _ _ h
  | exactlyO k vs => exact inv_addExactly _ _ h
  | indicatorO d e s r o => exact inv_addIndicator _ _ _ h
  | absO e o => exact inv_absOp _ _ h
  | maxO es o => exact inv_maxOp _ _ h
  | minO es o => exact inv_minOp _ _ h
  | productO x y o => exact inv_productOp _ _ _ h
  | semiContO lb ub => exact inv_semiContVar _ _ h
  | divModO e d => exact inv_divModOp _ _ h
  | eitherOrO e1 s1 r1 e2 s2 r2 o => exact inv_addEitherOr _ _ _ h
  | reifyO e s r o => exact inv_reifyOp _ _ h

theorem inv_applyOps (ops : List MOp) : NameInv (applyOps ops) := by
  unfold applyOps
  exact inv_foldl _ (fun m op hm => inv_applyOp op hm) ops Model.empty inv_empty

theorem mpsNamesGo_all_none :
    ∀ (cs : List Constraint), (∀ c ∈ cs, c.name = none) →
      ∀ i, mpsConstraintNamesGo cs i =
        (List.range' i cs.length).map (fun k => "c" ++ natDecimal k) := by
  intro cs
  induction cs with
  | nil => intro _ i; simp [mpsConstraintNamesGo]
  | cons c cs ih =>
    intro hall i
    have hcn : c.name = none := hall c (List.mem_cons_self _ _)
    rw [show (c :: cs).length = cs.length + 1 from rfl, List.range'_succ]
    simp [mpsConstraintNamesGo, hcn,
      ih (fun c2 hc2 => hall c2 (List.mem_cons_of_mem _ hc2)) (i + 1)]

/-- A model built with the caller-supplied name `"a"` used twice. -/
def c7Dup : Model :=
  ((Model.empty.numVar (.fin 0) (.fin 1) (some "a")).2.numVar
    (.fin 0) (.fin 1) (some "a")).2

/-- Constraints where a caller-supplied row name collides with the first
auto-assigned one. -/
def c7DupCs : List Constraint :=
  [⟨⟨[], 0⟩, .le, 0, some "c0"⟩, ⟨⟨[], 0⟩, .le, 0, none⟩]

/-- C7 counterexample: caller-supplied names are not checked — two variables
can share the name `"a"`, and a caller-supplied constraint name `"c0"` can
collide with the auto-assigned name of the next unnamed constraint, so the
claimed pairwise distinctness after arbitrary operations fails. -/
theorem c7_names_counterexample :
    c7Dup.vars.map Var.name = ["a", "a"] ∧
    ¬ (c7Dup.vars.map Var.name).Nodup ∧
    mpsConstraintNames c7DupCs = ["c0", "c0"] ∧
    ¬ (mpsConstraintNames c7DupCs).Nodup := by
  refine ⟨rfl, ?_, rfl, ?_⟩ <;> decide

/-- C7 as amended: when every name is generated (no caller-supplied variable
or constraint names anywhere in the call sequence), all variable names
`x0, x1, …` are pairwise distinct, and all serializer-assigned constraint
row names `c0, c1, …` are pairwise distinct. -/
theorem c7_generated_names_unique (ops : List MOp) :
    ((applyOps ops).vars.map Var.name).Nodup ∧
    (mpsConstraintNames (applyOps ops).constraints).Nodup := by
  obtain ⟨⟨l, hmap, hpw, hbd⟩, hc⟩ := inv_applyOps ops
  constructor
  · rw [hmap]
    have hnd : l.Nodup := (hpw.imp (fun h => ne_of_lt h))
    exact hnd.map (fun i j h => prefix_natDecimal_inj "x" i j h)
  · rw [mpsConstraintNames, mpsNamesGo_all_none _ hc 0]
    have hnd : (List.range' 0 (applyOps ops).constraints.length).Nodup :=
      List.nodup_range' _ _
    exact hnd.map (fun i j h => prefix_natDecimal_inj "c" i j h)
